import Mathlib

/-!
Verification of the `abouttt/data-structure` container library against its
natural-language specification.

The C++ sources are shallowly embedded: each container's state is a Lean
structure holding the logical contents of its buffer / node graph together
with the bookkeeping fields the source maintains (`capacity`, `front`,
`rear`, ...).  Machine integers (`size_t`) are modelled as `Nat` (the source
never relies on wrap-around: all the arithmetic in scope stays far below
2^64, and the one partial operation, `%`, is modelled explicitly as a
partial operation where the divisor can be zero).  Throwing operations are
modelled with explicit result types.  Element reads of uninitialized slots
never happen under the proved invariants; `List.getD` with a `default`
stand-in is used so every definition stays executable.
-/

set_option maxHeartbeats 1600000
set_option linter.unusedVariables false

namespace abouttt

variable {α : Type}

/-- `elt l i` reads slot `i` of buffer `l` (C++ `mData[i]`); out-of-range
reads — which the verified code paths never perform — give `default`. -/
def elt [Inhabited α] (l : List α) (i : Nat) : α := l.getD i default

/-- `std::swap(mData[i], mData[j])` on a buffer. -/
def lswap [Inhabited α] (l : List α) (i j : Nat) : List α :=
  (l.set i (elt l j)).set j (elt l i)

theorem elt_eq_getElem [Inhabited α] (l : List α) (i : Nat) (h : i < l.length) :
    elt l i = l[i] := by
  simp [elt, List.getD_eq_getElem?_getD, List.getElem?_eq_getElem h]

theorem elt_set_self [Inhabited α] (l : List α) (i : Nat) (a : α) (h : i < l.length) :
    elt (l.set i a) i = a := by
  rw [elt_eq_getElem _ _ (by simpa using h)]
  simp

theorem elt_set_ne [Inhabited α] (l : List α) (i k : Nat) (a : α) (h : i ≠ k) :
    elt (l.set i a) k = elt l k := by
  by_cases hk : k < l.length
  · rw [elt_eq_getElem _ _ (by simpa using hk), elt_eq_getElem _ _ hk,
      List.getElem_set_ne (by omega)]
  · simp only [elt]
    rw [List.getD_eq_default _ _ (by simpa using hk), List.getD_eq_default _ _ (by omega)]

theorem lswap_length [Inhabited α] (l : List α) (i j : Nat) :
    (lswap l i j).length = l.length := by simp [lswap]

theorem elt_lswap_fst [Inhabited α] (l : List α) (i j : Nat)
    (hi : i < l.length) (hij : i ≠ j) : elt (lswap l i j) i = elt l j := by
  rw [lswap, elt_set_ne _ _ _ _ (by omega), elt_set_self _ _ _ hi]

theorem elt_lswap_snd [Inhabited α] (l : List α) (i j : Nat)
    (hj : j < l.length) : elt (lswap l i j) j = elt l i := by
  rw [lswap, elt_set_self _ _ _ (by simpa using hj)]

theorem elt_lswap_other [Inhabited α] (l : List α) (i j k : Nat)
    (h1 : k ≠ i) (h2 : k ≠ j) : elt (lswap l i j) k = elt l k := by
  rw [lswap, elt_set_ne _ _ _ _ (by omega), elt_set_ne _ _ _ _ (by omega)]

/-! ### Binary-heap primitives (`src/PriorityQueue.h`)

`mCompare` is an arbitrary boolean comparator `cmp`; the source requires it
to be a strict weak ordering, captured by the three predicates below. -/

/-- Parent index in the implicit binary tree: `(i - 1) / 2`. -/
def hpar (i : Nat) : Nat := (i - 1) / 2

/-- Asymmetry of the comparator (part of the strict-weak-order precondition). -/
def CmpAsymm (cmp : α → α → Bool) : Prop :=
  ∀ a b, cmp a b = true → cmp b a = false

/-- Transitivity of the comparator. -/
def CmpTrans (cmp : α → α → Bool) : Prop :=
  ∀ a b c, cmp a b = true → cmp b c = true → cmp a c = true

/-- Negative transitivity (transitivity of incomparability-or-greater). -/
def CmpNegTrans (cmp : α → α → Bool) : Prop :=
  ∀ a b c, cmp a b = false → cmp b c = false → cmp a c = false

/-- The index `largest` computed by one iteration of
`PriorityQueue::heapifyDown` (two guarded comparisons against the children). -/
def hdTarget [Inhabited α] (cmp : α → α → Bool) (l : List α) (i : Nat) : Nat :=
  if 2*i+1 < l.length ∧ cmp (elt l i) (elt l (2*i+1)) = true then
    if 2*i+2 < l.length ∧ cmp (elt l (2*i+1)) (elt l (2*i+2)) = true then 2*i+2 else 2*i+1
  else
    if 2*i+2 < l.length ∧ cmp (elt l i) (elt l (2*i+2)) = true then 2*i+2 else i

theorem hdTarget_ne {cmp : α → α → Bool} [Inhabited α] {l : List α} {i : Nat}
    (h : hdTarget cmp l i ≠ i) :
    i < hdTarget cmp l i ∧ hdTarget cmp l i < l.length := by
  unfold hdTarget at h ⊢
  by_cases h1 : 2*i+1 < l.length ∧ cmp (elt l i) (elt l (2*i+1)) = true
  · rw [if_pos h1] at h ⊢
    by_cases h2 : 2*i+2 < l.length ∧ cmp (elt l (2*i+1)) (elt l (2*i+2)) = true
    · rw [if_pos h2]; omega
    · rw [if_neg h2]; omega
  · rw [if_neg h1] at h ⊢
    by_cases h2 : 2*i+2 < l.length ∧ cmp (elt l i) (elt l (2*i+2)) = true
    · rw [if_pos h2]; omega
    · rw [if_neg h2] at h; omega

/-- `PriorityQueue::heapifyDown`: sift the element at `i` down, at each step
swapping with the larger (per `cmp`) in-range child, until no child is
ranked above it. -/
def heapifyDown [Inhabited α] (cmp : α → α → Bool) (l : List α) (i : Nat) : List α :=
  if h : hdTarget cmp l i = i then l
  else heapifyDown cmp (lswap l i (hdTarget cmp l i)) (hdTarget cmp l i)
termination_by l.length - i
decreasing_by
  have := hdTarget_ne h
  rw [lswap_length]
  omega

/-- `PriorityQueue::heapifyUp`: sift the element at `i` up while its parent
is ranked below it by `cmp`. -/
def heapifyUp [Inhabited α] (cmp : α → α → Bool) (l : List α) (i : Nat) : List α :=
  if h : i = 0 then l
  else if cmp (elt l (hpar i)) (elt l i) = true then
    heapifyUp cmp (lswap l (hpar i) i) (hpar i)
  else l
termination_by i
decreasing_by
  simp only [hpar]
  omega

/-- The loop of `PriorityQueue::makeHeap`: `heapifyDown` on indices
`i-1, i-2, ..., 0`. -/
def makeHeapAux [Inhabited α] (cmp : α → α → Bool) : List α → Nat → List α
  | l, 0 => l
  | l, i + 1 => makeHeapAux cmp (heapifyDown cmp l i) i

/-- `PriorityQueue::makeHeap`: bottom-up linear-time heap construction. -/
def makeHeap [Inhabited α] (cmp : α → α → Bool) (l : List α) : List α :=
  if l.length ≤ 1 then l else makeHeapAux cmp l (l.length / 2)

/-- The spec's heap invariant (§3): no element at `i > 0` is ranked above
its parent `(i-1)/2` by the comparator. -/
def IsHeap [Inhabited α] (cmp : α → α → Bool) (l : List α) : Prop :=
  ∀ i, 0 < i → i < l.length → cmp (elt l (hpar i)) (elt l i) = false

/-- Per-parent form of the heap property: neither in-range child of `p`
is ranked above `p`. -/
def LocalHeap [Inhabited α] (cmp : α → α → Bool) (l : List α) (p : Nat) : Prop :=
  (2*p+1 < l.length → cmp (elt l p) (elt l (2*p+1)) = false) ∧
  (2*p+2 < l.length → cmp (elt l p) (elt l (2*p+2)) = false)

theorem hpar_child_left (p : Nat) : hpar (2*p+1) = p := by unfold hpar; omega

theorem hpar_child_right (p : Nat) : hpar (2*p+2) = p := by unfold hpar; omega

theorem child_of_hpar {i : Nat} (h : 0 < i) : i = 2 * hpar i + 1 ∨ i = 2 * hpar i + 2 := by
  unfold hpar; omega

theorem isHeap_of_localHeap [Inhabited α] {cmp : α → α → Bool} {l : List α}
    (h : ∀ p, LocalHeap cmp l p) : IsHeap cmp l := by
  intro i hi hilen
  rcases child_of_hpar hi with hc | hc
  · have := (h (hpar i)).1; rw [← hc] at this; exact this hilen
  · have := (h (hpar i)).2; rw [← hc] at this; exact this hilen

theorem localHeap_of_isHeap [Inhabited α] {cmp : α → α → Bool} {l : List α}
    (h : IsHeap cmp l) (p : Nat) : LocalHeap cmp l p := by
  constructor
  · intro hlt
    have := h (2*p+1) (by omega) hlt
    rwa [hpar_child_left] at this
  · intro hlt
    have := h (2*p+2) (by omega) hlt
    rwa [hpar_child_right] at this

/-- `Desc i j`: index `j` lies in the subtree rooted at `i` (reflexive;
built by parent steps, so `Desc i j` holds when walking parents from `j`
reaches `i`). -/
inductive Desc : Nat → Nat → Prop where
  | self (i : Nat) : Desc i i
  | up {i j : Nat} (hj : 0 < j) (hp : Desc i (hpar j)) : Desc i j

theorem hpar_le (j : Nat) : hpar j ≤ j := by unfold hpar; omega

theorem hpar_lt {j : Nat} (h : 0 < j) : hpar j < j := by unfold hpar; omega

theorem Desc.le {i j : Nat} (h : Desc i j) : i ≤ j := by
  induction h with
  | self => exact le_rfl
  | up hj hp ih => exact le_trans ih (hpar_le _)

theorem desc_child_left (i : Nat) : Desc i (2*i+1) :=
  Desc.up (by omega) (by rw [hpar_child_left]; exact Desc.self i)

theorem desc_child_right (i : Nat) : Desc i (2*i+2) :=
  Desc.up (by omega) (by rw [hpar_child_right]; exact Desc.self i)

theorem Desc.trans {i j k : Nat} (h1 : Desc i j) (h2 : Desc j k) : Desc i k := by
  induction h2 with
  | self => exact h1
  | up hj hp ih => exact Desc.up hj ih

theorem not_desc_of_lt {i j : Nat} (h : j < i) : ¬ Desc i j :=
  fun hd => absurd hd.le (by omega)

theorem Desc.elim_ne {i j : Nat} (h : Desc i j) (hne : j ≠ i) :
    0 < j ∧ Desc i (hpar j) := by
  cases h with
  | self => exact absurd rfl hne
  | up hj hp => exact ⟨hj, hp⟩

/-- When the `heapifyDown` loop stops immediately, neither child of `i` is
ranked above it. -/
theorem hdTarget_spec_eq [Inhabited α] {cmp : α → α → Bool} {l : List α} {i : Nat}
    (h : hdTarget cmp l i = i) : LocalHeap cmp l i := by
  unfold hdTarget at h
  by_cases h1 : 2*i+1 < l.length ∧ cmp (elt l i) (elt l (2*i+1)) = true
  · rw [if_pos h1] at h
    split at h <;> omega
  · rw [if_neg h1] at h
    by_cases h2 : 2*i+2 < l.length ∧ cmp (elt l i) (elt l (2*i+2)) = true
    · rw [if_pos h2] at h; omega
    · constructor
      · intro hb
        rcases Bool.eq_false_or_eq_true (cmp (elt l i) (elt l (2*i+1))) with ht | hf
        · exact absurd ⟨hb, ht⟩ h1
        · exact hf
      · intro hb
        rcases Bool.eq_false_or_eq_true (cmp (elt l i) (elt l (2*i+2))) with ht | hf
        · exact absurd ⟨hb, ht⟩ h2
        · exact hf

/-- When the `heapifyDown` loop swaps: the chosen child is ranked above `i`
and not below the other in-range child. -/
theorem hdTarget_spec_ne [Inhabited α] {cmp : α → α → Bool}
    (hA : CmpAsymm cmp) (hT : CmpTrans cmp) {l : List α} {i : Nat}
    (h : hdTarget cmp l i ≠ i) :
    (hdTarget cmp l i = 2*i+1 ∨ hdTarget cmp l i = 2*i+2) ∧
    hdTarget cmp l i < l.length ∧
    cmp (elt l i) (elt l (hdTarget cmp l i)) = true ∧
    (∀ s, (s = 2*i+1 ∨ s = 2*i+2) → s ≠ hdTarget cmp l i → s < l.length →
      cmp (elt l (hdTarget cmp l i)) (elt l s) = false) := by
  unfold hdTarget at h ⊢
  by_cases h1 : 2*i+1 < l.length ∧ cmp (elt l i) (elt l (2*i+1)) = true
  · rw [if_pos h1] at h ⊢
    by_cases h2 : 2*i+2 < l.length ∧ cmp (elt l (2*i+1)) (elt l (2*i+2)) = true
    · rw [if_pos h2] at h ⊢
      refine ⟨Or.inr rfl, h2.1, hT _ _ _ h1.2 h2.2, ?_⟩
      intro s hs hsne hslen
      rcases hs with rfl | rfl
      · exact hA _ _ h2.2
      · omega
    · rw [if_neg h2] at h ⊢
      refine ⟨Or.inl rfl, h1.1, h1.2, ?_⟩
      intro s hs hsne hslen
      rcases hs with rfl | rfl
      · omega
      · rcases Bool.eq_false_or_eq_true (cmp (elt l (2*i+1)) (elt l (2*i+2))) with ht | hf
        · exact absurd ⟨hslen, ht⟩ h2
        · exact hf
  · rw [if_neg h1] at h ⊢
    by_cases h2 : 2*i+2 < l.length ∧ cmp (elt l i) (elt l (2*i+2)) = true
    · rw [if_pos h2] at h ⊢
      refine ⟨Or.inr rfl, h2.1, h2.2, ?_⟩
      intro s hs hsne hslen
      rcases hs with rfl | rfl
      · rcases Bool.eq_false_or_eq_true (cmp (elt l (2*i+2)) (elt l (2*i+1))) with ht | hf
        · exact absurd ⟨hslen, hT _ _ _ h2.2 ht⟩ h1
        · exact hf
      · omega
    · rw [if_neg h2] at h; omega

/-- Main sift-down lemma: if every parent strictly below the subtree root
`i` already satisfies the local heap property, then after `heapifyDown cmp l i`
every parent from `i` on does; indices outside the subtree of `i` are
untouched, and slot `i` ends up holding one of the three top slots'
original values. -/
theorem heapifyDown_spec [Inhabited α] {cmp : α → α → Bool}
    (hA : CmpAsymm cmp) (hT : CmpTrans cmp) :
    ∀ (l : List α) (i : Nat),
    (∀ p, i < p → LocalHeap cmp l p) →
    (heapifyDown cmp l i).length = l.length ∧
    (∀ p, i ≤ p → LocalHeap cmp (heapifyDown cmp l i) p) ∧
    (∀ j, ¬ Desc i j → elt (heapifyDown cmp l i) j = elt l j) ∧
    (elt (heapifyDown cmp l i) i = elt l i ∨
      (2*i+1 < l.length ∧ elt (heapifyDown cmp l i) i = elt l (2*i+1)) ∨
      (2*i+2 < l.length ∧ elt (heapifyDown cmp l i) i = elt l (2*i+2))) := by
  intro l i
  induction l, i using heapifyDown.induct cmp with
  | case1 l i hstop =>
    intro pre
    rw [heapifyDown, dif_pos hstop]
    refine ⟨rfl, ?_, fun j _ => rfl, Or.inl rfl⟩
    intro p hp
    rcases eq_or_lt_of_le hp with rfl | hlt
    · exact hdTarget_spec_eq hstop
    · exact pre p hlt
  | case2 l i hne ih =>
    intro pre
    rw [heapifyDown, dif_neg hne]
    obtain ⟨htc, htlen, hcit, hsib⟩ := hdTarget_spec_ne hA hT hne
    have hit : i < hdTarget cmp l i := (hdTarget_ne hne).1
    have hilen : i < l.length := lt_trans hit htlen
    have hpart : hpar (hdTarget cmp l i) = i := by
      rcases htc with hc | hc <;> rw [hc]
      · exact hpar_child_left i
      · exact hpar_child_right i
    set t := hdTarget cmp l i with htdef
    set d := lswap l i t with hddef
    have hdlen : d.length = l.length := lswap_length l i t
    have hdi : elt d i = elt l t := elt_lswap_fst l i t hilen (by omega)
    have hdt : elt d t = elt l i := elt_lswap_snd l i t htlen
    have hdother : ∀ k, k ≠ i → k ≠ t → elt d k = elt l k :=
      fun k h1 h2 => elt_lswap_other l i t k h1 h2
    -- the recursive call's precondition
    have pre2 : ∀ p, t < p → LocalHeap cmp d p := by
      intro p hp
      have hLp := pre p (by omega)
      constructor
      · intro hb
        rw [hdlen] at hb
        rw [hdother p (by omega) (by omega), hdother (2*p+1) (by omega) (by omega)]
        exact hLp.1 hb
      · intro hb
        rw [hdlen] at hb
        rw [hdother p (by omega) (by omega), hdother (2*p+2) (by omega) (by omega)]
        exact hLp.2 hb
    obtain ⟨ihlen, ihlocal, ihout, ihtop⟩ := ih pre2
    have hreslen : (heapifyDown cmp d t).length = l.length := by rw [ihlen, hdlen]
    -- a node strictly between i and t, or any child of such a node, is untouched
    have hmid_not_desc : ∀ q, q ≠ t → hpar q < t → ¬ Desc t q := by
      intro q hq hplt hdesc
      obtain ⟨hq0, hdesc2⟩ := hdesc.elim_ne hq
      exact absurd hdesc2.le (by omega)
    have hti : elt (heapifyDown cmp d t) i = elt l t := by
      rw [ihout i (not_desc_of_lt hit), hdi]
    refine ⟨hreslen, ?_, ?_, ?_⟩
    · -- local heap property for all parents ≥ i
      intro p hp
      rcases lt_trichotomy p t with hplt | rfl | hpgt
      · rcases eq_or_lt_of_le hp with rfl | hpgti
        · -- p = i : children are t and its sibling
          constructor
          · intro hb
            rw [hreslen] at hb
            rcases htc with hc | hc
            · -- t = 2*i+1
              rw [hti, ← hc]
              rcases ihtop with h0 | h0 | h0
              · rw [h0, hdt]; exact hA _ _ hcit
              · rw [hdlen] at h0
                rw [h0.2, hdother (2*t+1) (by omega) (by omega)]
                exact (pre t hit).1 h0.1
              · rw [hdlen] at h0
                rw [h0.2, hdother (2*t+2) (by omega) (by omega)]
                exact (pre t hit).2 h0.1
            · -- t = 2*i+2 : left child is the sibling
              have hs : (2*i+1) ≠ t := by omega
              rw [hti, ihout (2*i+1) (hmid_not_desc _ hs (by rw [hpar_child_left]; omega)),
                hdother (2*i+1) (by omega) hs]
              exact hsib (2*i+1) (Or.inl rfl) hs hb
          · intro hb
            rw [hreslen] at hb
            rcases htc with hc | hc
            · -- t = 2*i+1 : right child is the sibling
              have hs : (2*i+2) ≠ t := by omega
              rw [hti, ihout (2*i+2) (hmid_not_desc _ hs (by rw [hpar_child_right]; omega)),
                hdother (2*i+2) (by omega) hs]
              exact hsib (2*i+2) (Or.inr rfl) hs hb
            · -- t = 2*i+2
              rw [hti, ← hc]
              rcases ihtop with h0 | h0 | h0
              · rw [h0, hdt]; exact hA _ _ hcit
              · rw [hdlen] at h0
                rw [h0.2, hdother (2*t+1) (by omega) (by omega)]
                exact (pre t hit).1 h0.1
              · rw [hdlen] at h0
                rw [h0.2, hdother (2*t+2) (by omega) (by omega)]
                exact (pre t hit).2 h0.1
        · -- i < p < t : untouched
          have hLp := pre p hpgti
          have hpnd : ¬ Desc t p := not_desc_of_lt hplt
          have hc1 : hpar (2*p+1) = p := hpar_child_left p
          have hc2 : hpar (2*p+2) = p := hpar_child_right p
          have hct1 : 2*p+1 ≠ t := by
            intro he; rw [← he, hc1] at hpart; omega
          have hct2 : 2*p+2 ≠ t := by
            intro he; rw [← he, hc2] at hpart; omega
          have hchild1 : elt (heapifyDown cmp d t) (2*p+1) = elt l (2*p+1) := by
            rw [ihout (2*p+1) (hmid_not_desc _ hct1 (by rw [hc1]; omega)),
              hdother (2*p+1) (by omega) hct1]
          have hchild2 : elt (heapifyDown cmp d t) (2*p+2) = elt l (2*p+2) := by
            rw [ihout (2*p+2) (hmid_not_desc _ hct2 (by rw [hc2]; omega)),
              hdother (2*p+2) (by omega) hct2]
          have hpval : elt (heapifyDown cmp d t) p = elt l p := by
            rw [ihout p hpnd, hdother p (by omega) (by omega)]
          constructor
          · intro hb; rw [hreslen] at hb; rw [hpval, hchild1]; exact hLp.1 hb
          · intro hb; rw [hreslen] at hb; rw [hpval, hchild2]; exact hLp.2 hb
      · -- p = t
        exact ihlocal t le_rfl
      · -- p > t
        exact ihlocal p (by omega)
    · -- untouched outside the subtree of i
      intro j hj
      have hji : j ≠ i := fun h => hj (h ▸ Desc.self i)
      have hdit : Desc i t := by
        rcases htc with hc | hc <;> rw [hc]
        · exact desc_child_left i
        · exact desc_child_right i
      have hjt : j ≠ t := fun h => hj (h ▸ hdit)
      have hjnd : ¬ Desc t j := fun h => hj (hdit.trans h)
      rw [ihout j hjnd, hdother j hji hjt]
    · -- the new value at the subtree root came from one of the top slots
      rcases htc with hc | hc
      · exact Or.inr (Or.inl ⟨by omega, by rw [hti, hc]⟩)
      · exact Or.inr (Or.inr ⟨by omega, by rw [hti, hc]⟩)

/-- Main sift-up lemma: if the array is a heap except possibly along the
edge into slot `j`, and the children of `j` are not ranked above `j`'s
parent, then `heapifyUp cmp l j` is a heap of the same length. -/
theorem heapifyUp_spec [Inhabited α] {cmp : α → α → Bool}
    (hA : CmpAsymm cmp) (hT : CmpTrans cmp) (hN : CmpNegTrans cmp) :
    ∀ (l : List α) (j : Nat), j < l.length →
    (∀ i, 0 < i → i < l.length → i ≠ j → cmp (elt l (hpar i)) (elt l i) = false) →
    (0 < j → ∀ c, (c = 2*j+1 ∨ c = 2*j+2) → c < l.length →
      cmp (elt l (hpar j)) (elt l c) = false) →
    IsHeap cmp (heapifyUp cmp l j) ∧ (heapifyUp cmp l j).length = l.length := by
  intro l j
  induction l, j using heapifyUp.induct cmp with
  | case1 l =>
    intro hjlen h1 h2
    rw [heapifyUp, dif_pos rfl]
    refine ⟨?_, rfl⟩
    intro i hi hilen
    exact h1 i hi hilen (by omega)
  | case2 l j hj0 hcmp ih =>
    intro hjlen h1 h2
    rw [heapifyUp, dif_neg hj0, if_pos hcmp]
    have hpj : hpar j < j := hpar_lt (by omega)
    have hplen : hpar j < l.length := by omega
    set p := hpar j with hpdef
    set d := lswap l p j with hddef
    have hdlen : d.length = l.length := lswap_length l p j
    have hdp : elt d p = elt l j := elt_lswap_fst l p j hplen (by omega)
    have hdj : elt d j = elt l p := elt_lswap_snd l p j hjlen
    have hdother : ∀ k, k ≠ p → k ≠ j → elt d k = elt l k :=
      fun k k1 k2 => elt_lswap_other l p j k k1 k2
    have h1new : ∀ i, 0 < i → i < d.length → i ≠ p →
        cmp (elt d (hpar i)) (elt d i) = false := by
      intro i hi hilen hip
      rw [hdlen] at hilen
      by_cases hij : i = j
      · subst hij
        rw [hdp, hdj]
        exact hA _ _ hcmp
      · rw [hdother i hip hij]
        by_cases hpi : hpar i = j
        · -- i is a child of j
          rw [hpi, hdj]
          rcases child_of_hpar hi with hc | hc <;> rw [hpi] at hc
          · exact h2 (by omega) i (Or.inl hc) hilen
          · exact h2 (by omega) i (Or.inr hc) hilen
        · by_cases hpp : hpar i = p
          · -- i is a sibling of j (or any other child of p)
            rw [hpp, hdp]
            have hvi : cmp (elt l p) (elt l i) = false := by
              have := h1 i hi hilen hij
              rwa [hpp] at this
            rcases Bool.eq_false_or_eq_true (cmp (elt l j) (elt l i)) with ht | hf
            · exact absurd (hT _ _ _ hcmp ht) (by simp [hvi])
            · exact hf
          · rw [hdother (hpar i) hpp hpi]
            exact h1 i hi hilen hij
    have h2new : 0 < p → ∀ c, (c = 2*p+1 ∨ c = 2*p+2) → c < d.length →
        cmp (elt d (hpar p)) (elt d c) = false := by
      intro hp0 c hc hclen
      rw [hdlen] at hclen
      have hgp : hpar p < p := hpar_lt hp0
      have hg := hdother (hpar p) (by omega) (by omega)
      by_cases hcj : c = j
      · subst hcj
        rw [hg, hdj]
        exact h1 p hp0 (by omega) (by omega)
      · have hcp : c ≠ p := by rcases hc with rfl | rfl <;> omega
        rw [hg, hdother c hcp hcj]
        have hpc : hpar c = p := by
          rcases hc with rfl | rfl
          · exact hpar_child_left p
          · exact hpar_child_right p
        have e1 : cmp (elt l (hpar p)) (elt l p) = false := h1 p hp0 (by omega) (by omega)
        have e2 : cmp (elt l p) (elt l c) = false := by
          have := h1 c (by rcases hc with rfl | rfl <;> omega) hclen hcj
          rwa [hpc] at this
        exact hN _ _ _ e1 e2
    obtain ⟨ihheap, ihlen⟩ := ih (by omega) h1new h2new
    exact ⟨ihheap, by rw [ihlen, hdlen]⟩
  | case3 l j hj0 hcmp =>
    intro hjlen h1 h2
    rw [heapifyUp, dif_neg hj0, if_neg hcmp]
    refine ⟨?_, rfl⟩
    intro i hi hilen
    by_cases hij : i = j
    · subst hij
      simpa using hcmp
    · exact h1 i hi hilen hij

theorem heapifyDown_length [Inhabited α] (cmp : α → α → Bool) :
    ∀ (l : List α) (i : Nat), (heapifyDown cmp l i).length = l.length := by
  intro l i
  induction l, i using heapifyDown.induct cmp with
  | case1 l i h => rw [heapifyDown, dif_pos h]
  | case2 l i h ih => rw [heapifyDown, dif_neg h, ih, lswap_length]

theorem heapifyUp_length [Inhabited α] (cmp : α → α → Bool) :
    ∀ (l : List α) (i : Nat), (heapifyUp cmp l i).length = l.length := by
  intro l i
  induction l, i using heapifyUp.induct cmp with
  | case1 l => rw [heapifyUp, dif_pos rfl]
  | case2 l i h hc ih => rw [heapifyUp, dif_neg h, if_pos hc, ih, lswap_length]
  | case3 l i h hc => rw [heapifyUp, dif_neg h, if_neg hc]

theorem makeHeapAux_length [Inhabited α] (cmp : α → α → Bool) :
    ∀ (n : Nat) (l : List α), (makeHeapAux cmp l n).length = l.length := by
  intro n
  induction n with
  | zero => intro l; rfl
  | succ i ih => intro l; rw [makeHeapAux, ih, heapifyDown_length]

theorem makeHeap_length [Inhabited α] (cmp : α → α → Bool) (l : List α) :
    (makeHeap cmp l).length = l.length := by
  unfold makeHeap
  split
  · rfl
  · rw [makeHeapAux_length]

theorem makeHeapAux_spec [Inhabited α] {cmp : α → α → Bool}
    (hA : CmpAsymm cmp) (hT : CmpTrans cmp) :
    ∀ (n : Nat) (l : List α), (∀ p, n ≤ p → LocalHeap cmp l p) →
    ∀ p, LocalHeap cmp (makeHeapAux cmp l n) p := by
  intro n
  induction n with
  | zero => intro l h p; exact h p (Nat.zero_le p)
  | succ i ih =>
    intro l h
    obtain ⟨_, loc, _, _⟩ := heapifyDown_spec hA hT l i (fun p hp => h p hp)
    exact ih (heapifyDown cmp l i) (fun p hp => loc p hp)

/-- `makeHeap` establishes the heap invariant on any input (linear-time
bottom-up heap construction, §4.4). -/
theorem makeHeap_isHeap [Inhabited α] {cmp : α → α → Bool}
    (hA : CmpAsymm cmp) (hT : CmpTrans cmp) (l : List α) :
    IsHeap cmp (makeHeap cmp l) := by
  unfold makeHeap
  split
  · intro i hi hilen
    exfalso
    omega
  · apply isHeap_of_localHeap
    apply makeHeapAux_spec hA hT (l.length / 2) l
    intro p hp
    constructor <;> intro hb <;> exfalso <;> omega

theorem elt_append_left [Inhabited α] (l1 l2 : List α) (k : Nat) (h : k < l1.length) :
    elt (l1 ++ l2) k = elt l1 k := by
  rw [elt_eq_getElem _ _ (by simp; omega), elt_eq_getElem _ _ h]
  exact List.getElem_append_left h

theorem elt_dropLast [Inhabited α] (l : List α) (k : Nat) (h : k < l.length - 1) :
    elt l.dropLast k = elt l k := by
  rw [elt_eq_getElem _ _ (by simp [List.length_dropLast]; omega),
    elt_eq_getElem _ _ (by omega)]
  exact List.getElem_dropLast l k _

/-! ### The Priority Queue container (`src/PriorityQueue.h`) -/

/-- Priority-queue state: the occupied prefix of `mData` (as a list) and
`mCapacity`.  `mCount = data.length`. -/
structure PQState (α : Type) where
  data : List α
  capacity : Nat
deriving Repr, DecidableEq

/-- `PriorityQueue::reallocate`: move the elements to a fresh buffer of size
`newCapacity` (truncating if smaller) and rebuild the heap when more than one
element was moved. -/
def pqReallocate [Inhabited α] (cmp : α → α → Bool) (s : PQState α)
    (newCapacity : Nat) : PQState α :=
  if newCapacity = s.capacity then s
  else if newCapacity = 0 then ⟨[], 0⟩
  else
    let newCount := min s.data.length newCapacity
    let d := s.data.take newCount
    ⟨if 1 < newCount then makeHeap cmp d else d, newCapacity⟩

/-- `PriorityQueue::ensureCapacity`: grow to
`max minCapacity (capacity == 0 ? 8 : capacity + capacity/2)` when needed. -/
def pqEnsureCapacity [Inhabited α] (cmp : α → α → Bool) (s : PQState α)
    (minCapacity : Nat) : PQState α :=
  if s.capacity < minCapacity then
    pqReallocate cmp s
      (max minCapacity (if s.capacity = 0 then 8 else s.capacity + s.capacity / 2))
  else s

/-- `PriorityQueue::Emplace`/`Enqueue`: ensure capacity, construct at the end,
sift up from the last slot. -/
def pqEmplace [Inhabited α] (cmp : α → α → Bool) (s : PQState α) (x : α) : PQState α :=
  let s1 := pqEnsureCapacity cmp s (s.data.length + 1)
  let d := s1.data ++ [x]
  ⟨heapifyUp cmp d (d.length - 1), s1.capacity⟩

/-- Result of an operation that can signal `Empty` (a thrown
`std::out_of_range`) or hit a debug-`assert` precondition violation. -/
inductive OpResult (σ : Type) where
  | ok (s : σ)
  | emptyError
  | assertViolation
deriving Repr, DecidableEq

/-- `PriorityQueue::Dequeue`: throw if empty, else swap the root with the
last element, destroy the last slot, and sift the new root down. -/
def pqDequeueE [Inhabited α] (cmp : α → α → Bool) (s : PQState α) :
    OpResult (PQState α) :=
  if s.data.length = 0 then .emptyError
  else
    let d := (lswap s.data 0 (s.data.length - 1)).dropLast
    .ok ⟨if 0 < d.length then heapifyDown cmp d 0 else d, s.capacity⟩

/-- `PriorityQueue::Peek`: throw if empty, else return the root. -/
def pqPeekE [Inhabited α] (s : PQState α) : OpResult α :=
  if s.data.length = 0 then .emptyError else .ok (elt s.data 0)

/-- A `Dequeue` call as seen from the container state: a thrown `Empty`
leaves the state unchanged. -/
def pqDequeue [Inhabited α] (cmp : α → α → Bool) (s : PQState α) : PQState α :=
  match pqDequeueE cmp s with
  | .ok s2 => s2
  | _ => s

/-- The operations of the claim: `Enqueue` and `Dequeue`. -/
inductive PQOp (α : Type) where
  | enqueue (x : α)
  | dequeue

def pqStep [Inhabited α] (cmp : α → α → Bool) (s : PQState α) : PQOp α → PQState α
  | .enqueue x => pqEmplace cmp s x
  | .dequeue => pqDequeue cmp s

/-- The initializer-list constructor: copy the elements, then `makeHeap`. -/
def pqFromList [Inhabited α] (cmp : α → α → Bool) (l : List α) : PQState α :=
  ⟨makeHeap cmp l, l.length⟩

def pqRun [Inhabited α] (cmp : α → α → Bool) (init : List α) (ops : List (PQOp α)) :
    PQState α :=
  ops.foldl (pqStep cmp) (pqFromList cmp init)

theorem isHeap_short [Inhabited α] {cmp : α → α → Bool} {l : List α}
    (h : l.length ≤ 1) : IsHeap cmp l := by
  intro i hi hilen
  exfalso
  omega

theorem pqReallocate_isHeap [Inhabited α] {cmp : α → α → Bool}
    (hA : CmpAsymm cmp) (hT : CmpTrans cmp) (s : PQState α) (newCapacity : Nat)
    (h : IsHeap cmp s.data) : IsHeap cmp (pqReallocate cmp s newCapacity).data := by
  unfold pqReallocate
  split
  · exact h
  · split
    · exact isHeap_short (by simp)
    · simp only
      split
      · exact makeHeap_isHeap hA hT _
      · exact isHeap_short (by simp; omega)

theorem pqEnsureCapacity_isHeap [Inhabited α] {cmp : α → α → Bool}
    (hA : CmpAsymm cmp) (hT : CmpTrans cmp) (s : PQState α) (minCapacity : Nat)
    (h : IsHeap cmp s.data) :
    IsHeap cmp (pqEnsureCapacity cmp s minCapacity).data := by
  unfold pqEnsureCapacity
  split
  · exact pqReallocate_isHeap hA hT s _ h
  · exact h

theorem pqEmplace_isHeap [Inhabited α] {cmp : α → α → Bool}
    (hA : CmpAsymm cmp) (hT : CmpTrans cmp) (hN : CmpNegTrans cmp)
    (s : PQState α) (x : α) (h : IsHeap cmp s.data) :
    IsHeap cmp (pqEmplace cmp s x).data := by
  have h1 : IsHeap cmp (pqEnsureCapacity cmp s (s.data.length + 1)).data :=
    pqEnsureCapacity_isHeap hA hT s _ h
  set s1 := pqEnsureCapacity cmp s (s.data.length + 1) with hs1
  set n := s1.data.length with hn
  have hd : (s1.data ++ [x]).length = n + 1 := by simp
  show IsHeap cmp (heapifyUp cmp (s1.data ++ [x]) ((s1.data ++ [x]).length - 1))
  rw [hd]
  simp only [Nat.add_sub_cancel]
  apply (heapifyUp_spec hA hT hN (s1.data ++ [x]) n (by omega) ?_ ?_).1
  · intro i hi hilen hin
    rw [hd] at hilen
    have hi2 : i < n := by omega
    have hp2 : hpar i < n := by have := hpar_le i; omega
    rw [elt_append_left _ _ _ hi2, elt_append_left _ _ _ hp2]
    exact h1 i hi hi2
  · intro hn0 c hc hclen
    rw [hd] at hclen
    exfalso
    omega

theorem pqDequeue_isHeap [Inhabited α] {cmp : α → α → Bool}
    (hA : CmpAsymm cmp) (hT : CmpTrans cmp)
    (s : PQState α) (h : IsHeap cmp s.data) :
    IsHeap cmp (pqDequeue cmp s).data := by
  by_cases hn0 : s.data.length = 0
  · unfold pqDequeue pqDequeueE
    rw [if_pos hn0]
    exact h
  · have hrw : pqDequeue cmp s =
        ⟨if 0 < ((lswap s.data 0 (s.data.length - 1)).dropLast).length
          then heapifyDown cmp ((lswap s.data 0 (s.data.length - 1)).dropLast) 0
          else (lswap s.data 0 (s.data.length - 1)).dropLast, s.capacity⟩ := by
      unfold pqDequeue pqDequeueE
      rw [if_neg hn0]
    rw [hrw]
    simp only
    set n := s.data.length with hn
    have hn1 : 1 ≤ n := by omega
    set d := (lswap s.data 0 (n - 1)).dropLast with hd
    have hdl : d.length = n - 1 := by
      rw [hd, List.length_dropLast, lswap_length]
    split
    · rename_i hpos
      have pre : ∀ p, 0 < p → LocalHeap cmp d p := by
        intro p hp
        have hq : ∀ q, 1 ≤ q → q < n - 1 → elt d q = elt s.data q := by
          intro q h1q h2q
          rw [hd, elt_dropLast _ _ (by rw [lswap_length]; omega),
            elt_lswap_other _ _ _ _ (by omega) (by omega)]
        constructor
        · intro hb
          rw [hdl] at hb
          rw [hq p (by omega) (by omega), hq (2*p+1) (by omega) (by omega)]
          have := h (2*p+1) (by omega) (by omega)
          rwa [hpar_child_left] at this
        · intro hb
          rw [hdl] at hb
          rw [hq p (by omega) (by omega), hq (2*p+2) (by omega) (by omega)]
          have := h (2*p+2) (by omega) (by omega)
          rwa [hpar_child_right] at this
      obtain ⟨_, loc, _, _⟩ := heapifyDown_spec hA hT d 0 (fun p hp => pre p hp)
      exact isHeap_of_localHeap (fun p => loc p (Nat.zero_le p))
    · rename_i hz
      exact isHeap_short (by omega)


theorem pqStep_isHeap [Inhabited α] {cmp : α → α → Bool}
    (hA : CmpAsymm cmp) (hT : CmpTrans cmp) (hN : CmpNegTrans cmp)
    (s : PQState α) (op : PQOp α) (h : IsHeap cmp s.data) :
    IsHeap cmp (pqStep cmp s op).data := by
  cases op with
  | enqueue x => exact pqEmplace_isHeap hA hT hN s x h
  | dequeue => exact pqDequeue_isHeap hA hT s h

theorem pqRun_isHeap_aux [Inhabited α] {cmp : α → α → Bool}
    (hA : CmpAsymm cmp) (hT : CmpTrans cmp) (hN : CmpNegTrans cmp) :
    ∀ (ops : List (PQOp α)) (s : PQState α), IsHeap cmp s.data →
    IsHeap cmp (ops.foldl (pqStep cmp) s).data := by
  intro ops
  induction ops with
  | nil => intro s h; exact h
  | cons op rest ih =>
    intro s h
    rw [List.foldl_cons]
    exact ih _ (pqStep_isHeap hA hT hN s op h)

/-- C2: after constructing a Priority Queue from an arbitrary initial
sequence and running any sequence of Enqueue/Dequeue operations, no element
at position `i > 0` is ranked above its parent `(i-1)/2` by the (strict
weak order) comparator. -/
theorem pq_heap_invariant [Inhabited α] {cmp : α → α → Bool}
    (hA : CmpAsymm cmp) (hT : CmpTrans cmp) (hN : CmpNegTrans cmp)
    (init : List α) (ops : List (PQOp α)) :
    IsHeap cmp (pqRun cmp init ops).data := by
  unfold pqRun
  exact pqRun_isHeap_aux hA hT hN ops (pqFromList cmp init) (makeHeap_isHeap hA hT init)

/-- `std::less<Nat>` as a boolean comparator (the default `Compare`). -/
def natLt (a b : Nat) : Bool := decide (a < b)

theorem natLt_asymm : CmpAsymm natLt := by
  intro a b h
  simp only [natLt, decide_eq_true_eq] at h
  simp only [natLt, decide_eq_false_iff_not]
  omega

theorem natLt_trans : CmpTrans natLt := by
  intro a b c h1 h2
  simp only [natLt, decide_eq_true_eq] at h1 h2 ⊢
  omega

theorem natLt_negtrans : CmpNegTrans natLt := by
  intro a b c h1 h2
  simp only [natLt, decide_eq_false_iff_not] at h1 h2 ⊢
  omega

/-- Witness for C2: the heap invariant at a concrete comparator, initial
sequence and operation sequence (which triggers sift-up, sift-down and the
bottom-up build). -/
theorem pq_heap_invariant_witness :
    IsHeap natLt (pqRun natLt [5, 1, 8, 3]
      [PQOp.enqueue 9, PQOp.dequeue, PQOp.enqueue 0, PQOp.dequeue]).data :=
  pq_heap_invariant natLt_asymm natLt_trans natLt_negtrans [5, 1, 8, 3]
    [PQOp.enqueue 9, PQOp.dequeue, PQOp.enqueue 0, PQOp.dequeue]

/-! ### The Stack container (`src/Stack.h`) -/

/-- Stack state: occupied prefix of `mData` plus `mCapacity`. -/
structure StackState (α : Type) where
  data : List α
  capacity : Nat
deriving Repr, DecidableEq

/-- `Stack::reallocate` (success path): move `min(count, newCapacity)`
elements to the fresh buffer. -/
def stackReallocate [Inhabited α] (s : StackState α) (newCapacity : Nat) : StackState α :=
  if newCapacity = s.capacity then s
  else if newCapacity = 0 then ⟨[], 0⟩
  else ⟨s.data.take (min s.data.length newCapacity), newCapacity⟩

/-- `Stack::ensureCapacity`: `max(minCapacity, capacity == 0 ? 8 : capacity + capacity/2)`. -/
def stackEnsureCapacity [Inhabited α] (s : StackState α) (minCapacity : Nat) : StackState α :=
  if s.capacity < minCapacity then
    stackReallocate s
      (max minCapacity (if s.capacity = 0 then 8 else s.capacity + s.capacity / 2))
  else s

/-- `Stack::Push`/`Emplace`: ensure capacity for one more, construct at end. -/
def stackPush [Inhabited α] (s : StackState α) (x : α) : StackState α :=
  let s1 := stackEnsureCapacity s (s.data.length + 1)
  ⟨s1.data ++ [x], s1.capacity⟩

/-- `Stack::Pop`: throws when empty, else destroys the top slot. -/
def stackPop [Inhabited α] (s : StackState α) : OpResult (StackState α) :=
  if s.data.length = 0 then .emptyError else .ok ⟨s.data.dropLast, s.capacity⟩

/-- `Stack::Peek`: throws when empty, else returns the top element. -/
def stackPeek [Inhabited α] (s : StackState α) : OpResult α :=
  if s.data.length = 0 then .emptyError else .ok (elt s.data (s.data.length - 1))

theorem stackEnsure_capacity_of_grow [Inhabited α] (s : StackState α)
    (h : s.capacity < s.data.length + 1) :
    (stackEnsureCapacity s (s.data.length + 1)).capacity
      = max (s.data.length + 1) (if s.capacity = 0 then 8 else s.capacity + s.capacity / 2) := by
  have hm1 : s.data.length + 1
      ≤ max (s.data.length + 1) (if s.capacity = 0 then 8 else s.capacity + s.capacity / 2) :=
    le_max_left _ _
  unfold stackEnsureCapacity
  rw [if_pos h]
  unfold stackReallocate
  rw [if_neg (by omega), if_neg (by omega)]

theorem pqEnsure_capacity_of_grow [Inhabited α] (cmp : α → α → Bool) (s : PQState α)
    (h : s.capacity < s.data.length + 1) :
    (pqEnsureCapacity cmp s (s.data.length + 1)).capacity
      = max (s.data.length + 1) (if s.capacity = 0 then 8 else s.capacity + s.capacity / 2) := by
  have hm1 : s.data.length + 1
      ≤ max (s.data.length + 1) (if s.capacity = 0 then 8 else s.capacity + s.capacity / 2) :=
    le_max_left _ _
  unfold pqEnsureCapacity
  rw [if_pos h]
  unfold pqReallocate
  rw [if_neg (by omega), if_neg (by omega)]

/-- C4 counterexample: pushing onto a Stack with `count == capacity == 0`
grows the capacity to `8`, not to the Dynamic Array's `max(1, capacity*2) = 1`
that the claim states. -/
theorem stack_growth_not_vector_policy :
    (stackPush (⟨[], 0⟩ : StackState Nat) 7).capacity
      ≠ max 1 ((⟨[], 0⟩ : StackState Nat).capacity * 2) := by decide

/-- C4 (amended): when Priority Queue `Enqueue` or Stack `Push` triggers
growth (`count == capacity`), the new capacity is
`max(count + 1, capacity == 0 ? 8 : capacity + capacity/2)` — the Circular
Queue's 1.5×-with-floor-8 policy, not the Dynamic Array's `max(1, capacity*2)`. -/
theorem stack_pq_growth_policy [Inhabited α] (cmp : α → α → Bool)
    (s : StackState α) (q : PQState α) (x y : α)
    (hs : s.data.length = s.capacity) (hq : q.data.length = q.capacity) :
    (stackPush s x).capacity
      = max (s.data.length + 1) (if s.capacity = 0 then 8 else s.capacity + s.capacity / 2) ∧
    (pqEmplace cmp q y).capacity
      = max (q.data.length + 1) (if q.capacity = 0 then 8 else q.capacity + q.capacity / 2) := by
  constructor
  · show (stackEnsureCapacity s (s.data.length + 1)).capacity = _
    exact stackEnsure_capacity_of_grow s (by omega)
  · show (pqEnsureCapacity cmp q (q.data.length + 1)).capacity = _
    exact pqEnsure_capacity_of_grow cmp q (by omega)

/-- Witness for C4's amended statement at full containers of capacity 2. -/
theorem stack_pq_growth_policy_witness :
    (stackPush (⟨[4, 2], 2⟩ : StackState Nat) 9).capacity
      = max (2 + 1) (if (2 : Nat) = 0 then 8 else 2 + 2 / 2) ∧
    (pqEmplace natLt (⟨[5, 1], 2⟩ : PQState Nat) 9).capacity
      = max (2 + 1) (if (2 : Nat) = 0 then 8 else 2 + 2 / 2) :=
  stack_pq_growth_policy natLt ⟨[4, 2], 2⟩ ⟨[5, 1], 2⟩ 9 9 rfl rfl

/-! ### The Dynamic Array (`src/Vector.h`) -/

/-- Dynamic-array state: occupied prefix of `_data` plus `_capacity`. -/
structure VecState (α : Type) where
  data : List α
  capacity : Nat
deriving Repr, DecidableEq

/-- Outcome of an operation during which an element copy/move constructor
may throw: either it completes, or the exception propagates carrying the
container state observable afterwards together with counts of heap blocks
and constructed elements that no code path will ever release (leaks). -/
inductive GrowResult (σ : Type) where
  | ok (s : σ)
  | thrown (s : σ) (leakedBlocks leakedElems : Nat)
deriving Repr, DecidableEq

/-- `Vector::reallocate` under a throw oracle `ct` (`ct v = true` means the
copy constructor of value `v` throws; the source copies element `i` via
`std::move_if_noexcept(_data[i])`, so with a potentially-throwing move the
copy constructor runs and the originals stay intact).  The source body has
NO try/catch: `allocate`, then construct elements `0..` in order.  If the
`k`-th construction throws, the exception propagates before any member
field is assigned — the old buffer stays valid, but the new block and the
`k` elements already constructed in it are never destroyed or deallocated. -/
def vecReallocate [Inhabited α] (ct : α → Bool) (s : VecState α) (newCap : Nat) :
    GrowResult (VecState α) :=
  match (s.data.take (min s.data.length newCap)).findIdx? (fun v => ct v) with
  | some k => .thrown s 1 k
  | none => .ok ⟨s.data.take (min s.data.length newCap), newCap⟩

/-- `Vector::reserve`: reallocate only when the requested capacity is larger. -/
def vecReserve [Inhabited α] (ct : α → Bool) (s : VecState α) (newCap : Nat) :
    GrowResult (VecState α) :=
  if s.capacity < newCap then vecReallocate ct s newCap else .ok s

/-- `Vector::push_back(const T&)` under the throw oracle: grow by the 2×
policy when full, then copy-construct the new element at the end (a throw
in that final construct leaks nothing: `_size` was not yet incremented). -/
def vecPushBack [Inhabited α] (ct : α → Bool) (s : VecState α) (x : α) :
    GrowResult (VecState α) :=
  match (if s.data.length = s.capacity then
      vecReserve ct s (if s.capacity = 0 then 1 else s.capacity * 2)
    else .ok s) with
  | .thrown s1 b e => .thrown s1 b e
  | .ok s1 => if ct x then .thrown s1 0 0 else .ok ⟨s1.data ++ [x], s1.capacity⟩

/-- C1: evaluation of the failing path.  A full one-element Vector whose
element type has a throwing copy constructor: `push_back` triggers the
growth reallocation, the first copy into the new buffer throws, and because
`Vector::reallocate` has no try/catch the freshly allocated block leaks
(`leakedBlocks = 1`) — size and visible contents are unchanged, but the
claim's "no memory is leaked" is violated. -/
theorem vector_growth_leaks_on_throw :
    vecPushBack (fun _ => true) (⟨[7], 1⟩ : VecState Nat) 9
      = .thrown ⟨[7], 1⟩ 1 0 := by decide

/-- `Vector::at` (checked access; throws `OutOfRange` iff `pos ≥ size`). -/
def vecAt [Inhabited α] (s : VecState α) (pos : Nat) : Except Unit α :=
  if pos ≥ s.data.length then .error () else .ok (elt s.data pos)

/-- `Vector::insert(pos, value)`: bounds check first (`pos > size` throws,
before any mutation), then 2× growth when full, then shift `[pos, size)`
right one slot and write `value` at `pos`. -/
def vecInsert [Inhabited α] (s : VecState α) (pos : Nat) (x : α) :
    Except Unit (VecState α) :=
  if pos > s.data.length then .error ()
  else
    .ok ⟨s.data.take pos ++ x :: s.data.drop pos,
      if s.data.length = s.capacity then
        (if s.capacity = 0 then 1 else s.capacity * 2) else s.capacity⟩

/-- `Vector::emplace(pos, args...)`: same bounds check and growth as
`insert`, constructing in place. -/
def vecEmplace [Inhabited α] (s : VecState α) (pos : Nat) (x : α) :
    Except Unit (VecState α) :=
  if pos > s.data.length then .error ()
  else
    .ok ⟨s.data.take pos ++ x :: s.data.drop pos,
      if s.data.length = s.capacity then
        (if s.capacity = 0 then 1 else s.capacity * 2) else s.capacity⟩

/-- `Vector::erase(pos)`: bounds check (`pos ≥ size` throws), then shift
`[pos+1, size)` left and destroy the last slot. -/
def vecErase [Inhabited α] (s : VecState α) (pos : Nat) : Except Unit (VecState α) :=
  if pos ≥ s.data.length then .error ()
  else .ok ⟨s.data.take pos ++ s.data.drop (pos + 1), s.capacity⟩

/-- `Vector::pop_back`: `assert(!empty())` — popping an empty vector is a
debug-assert precondition violation, not a thrown (recoverable) error. -/
def vecPopBack [Inhabited α] (s : VecState α) : OpResult (VecState α) :=
  if s.data.length = 0 then .assertViolation
  else .ok ⟨s.data.dropLast, s.capacity⟩

/-! ### The Circular Queue (second unit of `src/LinkedList.h`, and
`src/unnamed/part_002`) -/

/-- Circular-queue state: the whole backing buffer (`length = capacity`,
junk `default` in unoccupied slots) plus `mFront`, `mRear`, `mCount`,
`mCapacity`. -/
structure QState (α : Type) where
  buf : List α
  front : Nat
  rear : Nat
  count : Nat
  capacity : Nat
deriving Repr, DecidableEq

/-- The logical FIFO contents: element `i` lives at slot
`(front + i) % capacity`. -/
def qSeq [Inhabited α] (q : QState α) : List α :=
  (List.range q.count).map (fun i => elt q.buf ((q.front + i) % q.capacity))

/-- The element moves performed by `Queue::reallocate` (guarded by
`mData && newCount > 0`): one block when `front < rear`, otherwise the
wrapped two-chunk copy starting at `front`. -/
def qMoved [Inhabited α] (q : QState α) (newCount : Nat) : List α :=
  if q.buf.length = 0 ∨ newCount = 0 then []
  else if q.front < q.rear then (q.buf.drop q.front).take newCount
  else
    ((q.buf.drop q.front).take (min newCount (q.capacity - q.front))) ++
      q.buf.take (newCount - min newCount (q.capacity - q.front))

/-- `Queue::reallocate`: move into a fresh buffer starting at slot 0 and
reset `front = 0`, `rear = newCount % newCapacity`. -/
def qReallocate [Inhabited α] (q : QState α) (newCapacity : Nat) : QState α :=
  if newCapacity = q.capacity then q
  else if newCapacity = 0 then ⟨[], 0, 0, 0, 0⟩
  else
    let newCount := min q.count newCapacity
    let moved := qMoved q newCount
    ⟨moved ++ List.replicate (newCapacity - moved.length) default,
      0, newCount % newCapacity, newCount, newCapacity⟩

/-- `Queue::ensureCapacity`: the 1.5×-with-floor-8 growth policy. -/
def qEnsureCapacity [Inhabited α] (q : QState α) (minCapacity : Nat) : QState α :=
  if q.capacity < minCapacity then
    qReallocate q
      (max minCapacity (if q.capacity = 0 then 8 else q.capacity + q.capacity / 2))
  else q

/-- `Queue::Enqueue`/`Emplace`: ensure room, construct at `rear`, advance
`rear` modulo capacity. -/
def qEnqueue [Inhabited α] (q : QState α) (x : α) : QState α :=
  let q1 := qEnsureCapacity q (q.count + 1)
  ⟨q1.buf.set q1.rear x, q1.front, (q1.rear + 1) % q1.capacity, q1.count + 1, q1.capacity⟩

/-- `Queue::Dequeue`: throws `Empty` when `count == 0`, else destroys the
front slot and advances `front` modulo capacity. -/
def qDequeueE [Inhabited α] (q : QState α) : OpResult (QState α) :=
  if q.count = 0 then .emptyError
  else .ok ⟨q.buf, (q.front + 1) % q.capacity, q.rear, q.count - 1, q.capacity⟩

/-- `Queue::Peek`: throws `Empty` when `count == 0`, else the front element. -/
def qPeekE [Inhabited α] (q : QState α) : OpResult α :=
  if q.count = 0 then .emptyError else .ok (elt q.buf q.front)

/-- The ring representation invariant maintained by the queue. -/
def QInv [Inhabited α] (q : QState α) : Prop :=
  q.buf.length = q.capacity ∧ q.count ≤ q.capacity ∧
  (q.capacity = 0 → q.front = 0 ∧ q.rear = 0) ∧
  (0 < q.capacity → q.front < q.capacity ∧ q.rear = (q.front + q.count) % q.capacity)

theorem qSeq_length [Inhabited α] (q : QState α) : (qSeq q).length = q.count := by
  simp [qSeq]

instance qInvDecidable [Inhabited α] (q : QState α) : Decidable (QInv q) := by
  unfold QInv
  infer_instance

theorem qSeq_get [Inhabited α] (q : QState α) (i : Nat) (h : i < q.count) :
    elt (qSeq q) i = elt q.buf ((q.front + i) % q.capacity) := by
  rw [elt_eq_getElem _ _ (by rw [qSeq_length]; exact h)]
  simp [qSeq]

theorem mod_cases {a cap : Nat} (h : a < 2 * cap) (hc : 0 < cap) :
    (a % cap = a ∧ a < cap) ∨ (a % cap = a - cap ∧ cap ≤ a) := by
  by_cases ha : a < cap
  · exact Or.inl ⟨Nat.mod_eq_of_lt ha, ha⟩
  · refine Or.inr ⟨?_, by omega⟩
    rw [Nat.mod_eq_sub_mod (by omega), Nat.mod_eq_of_lt (by omega)]

theorem qMoved_eq [Inhabited α] (q : QState α) (hI : QInv q) :
    qMoved q q.count = qSeq q := by
  obtain ⟨hb, hcc, hz, hp⟩ := hI
  by_cases h0 : q.count = 0
  · unfold qMoved
    rw [if_pos (Or.inr h0)]
    simp [qSeq, h0]
  · have hcap : 0 < q.capacity := by omega
    obtain ⟨hf, hr⟩ := hp hcap
    have hblen : q.buf.length ≠ 0 := by omega
    unfold qMoved
    rw [if_neg (by omega)]
    by_cases hfr : q.front < q.rear
    · -- unwrapped: front + count < capacity and rear = front + count
      have hlt : q.front + q.count < q.capacity ∧ q.rear = q.front + q.count := by
        rcases mod_cases (a := q.front + q.count) (by omega) hcap with ⟨he, hl⟩ | ⟨he, hl⟩
        · constructor
          · by_cases hh : q.front + q.count < q.capacity
            · exact hh
            · omega
          · omega
        · omega
      rw [if_pos hfr]
      apply List.ext_getElem
      · rw [qSeq_length]
        simp
        omega
      · intro i h1 h2
        have hi : i < q.count := by rw [qSeq_length] at h2; exact h2
        have hgoal : elt ((q.buf.drop q.front).take q.count) i = elt (qSeq q) i := by
          rw [qSeq_get q i hi, Nat.mod_eq_of_lt (by omega)]
          rw [elt_eq_getElem _ _ (by simp; omega), elt_eq_getElem _ _ (by omega)]
          rw [List.getElem_take, List.getElem_drop]
        rw [← elt_eq_getElem _ _ h1, ← elt_eq_getElem _ _ h2]
        exact hgoal
    · -- wrapped: capacity ≤ front + count
      have hwrap : q.capacity ≤ q.front + q.count := by
        rcases mod_cases (a := q.front + q.count) (by omega) hcap with ⟨he, hl⟩ | ⟨he, hl⟩
        · omega
        · omega
      have hmin : min q.count (q.capacity - q.front) = q.capacity - q.front := by omega
      rw [if_neg hfr, hmin]
      apply List.ext_getElem
      · rw [qSeq_length]
        simp
        omega
      · intro i h1 h2
        have hi : i < q.count := by rw [qSeq_length] at h2; exact h2
        rw [← elt_eq_getElem _ _ h1, ← elt_eq_getElem _ _ h2]
        rw [qSeq_get q i hi]
        by_cases hcase : i < q.capacity - q.front
        · rw [Nat.mod_eq_of_lt (by omega)]
          rw [elt_append_left _ _ _ (by simp; omega)]
          rw [elt_eq_getElem _ _ (by simp; omega), elt_eq_getElem _ _ (by omega)]
          rw [List.getElem_take, List.getElem_drop]
        · have hmod : (q.front + i) % q.capacity = i - (q.capacity - q.front) := by
            rcases mod_cases (a := q.front + i) (by omega) hcap with ⟨he, hl⟩ | ⟨he, hl⟩
            · omega
            · omega
          rw [hmod]
          have hlen1 : ((q.buf.drop q.front).take (q.capacity - q.front)).length
              = q.capacity - q.front := by simp; omega
          rw [elt, List.getD_eq_getElem?_getD, List.getElem?_append_right (by omega), hlen1]
          rw [List.getElem?_eq_getElem (by simp; omega)]
          rw [elt_eq_getElem _ _ (by omega)]
          simp only [Option.getD_some]
          rw [List.getElem_take]

theorem qReallocate_grow [Inhabited α] (q : QState α) (newCap : Nat)
    (hI : QInv q) (h : q.capacity < newCap) :
    QInv (qReallocate q newCap) ∧ qSeq (qReallocate q newCap) = qSeq q ∧
    (qReallocate q newCap).front = 0 ∧
    (qReallocate q newCap).capacity = newCap ∧
    (qReallocate q newCap).count = q.count ∧
    (qReallocate q newCap).rear = q.count % newCap := by
  obtain ⟨hb, hcc, hz, hp⟩ := hI
  have hmin : min q.count newCap = q.count := by omega
  have hrw : qReallocate q newCap =
      ⟨qMoved q q.count ++ List.replicate (newCap - (qMoved q q.count).length) default,
        0, q.count % newCap, q.count, newCap⟩ := by
    unfold qReallocate
    rw [if_neg (by omega), if_neg (by omega), hmin]
  have hmv : qMoved q q.count = qSeq q := qMoved_eq q ⟨hb, hcc, hz, hp⟩
  have hmvlen : (qMoved q q.count).length = q.count := by rw [hmv, qSeq_length]
  rw [hrw]
  have hblen : (qMoved q q.count ++
      List.replicate (newCap - (qMoved q q.count).length) default).length = newCap := by
    simp [hmvlen]
    omega
  refine ⟨?_, ?_, rfl, rfl, rfl, rfl⟩
  · unfold QInv
    dsimp only
    refine ⟨hblen, by omega, ?_, ?_⟩
    · intro h0
      exact absurd h0 (by omega)
    · intro hpos
      exact ⟨hpos, by rw [Nat.zero_add]⟩
  · apply List.ext_getElem
    · rw [qSeq_length, qSeq_length]
    · intro i h1 h2
      rw [qSeq_length] at h1 h2
      dsimp only at h1
      rw [← elt_eq_getElem _ _ (by rw [qSeq_length]; exact h1),
        ← elt_eq_getElem _ _ (by rw [qSeq_length]; exact h2)]
      rw [qSeq_get q i h2,
        qSeq_get ⟨qMoved q q.count ++ List.replicate (newCap - (qMoved q q.count).length)
          default, 0, q.count % newCap, q.count, newCap⟩ i h1]
      dsimp only
      rw [Nat.zero_add, Nat.mod_eq_of_lt (by omega)]
      rw [elt_append_left _ _ _ (by rw [hmvlen]; omega)]
      rw [hmv, qSeq_get _ i (by omega)]

theorem elt_cons_zero [Inhabited α] (a : α) (l : List α) : elt (a :: l) 0 = a := rfl

theorem elt_cons_succ [Inhabited α] (a : α) (l : List α) (j : Nat) :
    elt (a :: l) (j + 1) = elt l j := rfl

theorem elt_append_last [Inhabited α] (l : List α) (x : α) : elt (l ++ [x]) l.length = x := by
  rw [elt_eq_getElem _ _ (by simp)]
  exact List.getElem_concat_length l x l.length rfl _

theorem qEnsure_spec [Inhabited α] (q : QState α) (hI : QInv q) :
    QInv (qEnsureCapacity q (q.count + 1)) ∧
    qSeq (qEnsureCapacity q (q.count + 1)) = qSeq q ∧
    (qEnsureCapacity q (q.count + 1)).count = q.count ∧
    (qEnsureCapacity q (q.count + 1)).count + 1 ≤ (qEnsureCapacity q (q.count + 1)).capacity := by
  unfold qEnsureCapacity
  split
  · rename_i hlt
    have hmle := le_max_left (q.count + 1)
      (if q.capacity = 0 then 8 else q.capacity + q.capacity / 2)
    obtain ⟨a, b, c, d, e, f⟩ := qReallocate_grow q
      (max (q.count + 1) (if q.capacity = 0 then 8 else q.capacity + q.capacity / 2))
      hI (by omega)
    refine ⟨a, b, e, ?_⟩
    rw [e, d]
    omega
  · rename_i hge
    exact ⟨hI, rfl, rfl, by omega⟩

theorem qWrite_spec [Inhabited α] (q1 : QState α) (x : α) (hI : QInv q1)
    (hroom : q1.count + 1 ≤ q1.capacity) :
    QInv (⟨q1.buf.set q1.rear x, q1.front, (q1.rear + 1) % q1.capacity,
      q1.count + 1, q1.capacity⟩ : QState α) ∧
    qSeq (⟨q1.buf.set q1.rear x, q1.front, (q1.rear + 1) % q1.capacity,
      q1.count + 1, q1.capacity⟩ : QState α) = qSeq q1 ++ [x] := by
  obtain ⟨hb, hcc, hz, hp⟩ := hI
  have hcap : 0 < q1.capacity := by omega
  obtain ⟨hf, hr⟩ := hp hcap
  have hrlt : q1.rear < q1.capacity := by rw [hr]; exact Nat.mod_lt _ hcap
  have hslot : ∀ i, i < q1.count → (q1.front + i) % q1.capacity ≠ q1.rear := by
    intro i hi heq
    rw [hr] at heq
    rcases mod_cases (a := q1.front + i) (by omega) hcap with ⟨e1, l1⟩ | ⟨e1, l1⟩ <;>
      rcases mod_cases (a := q1.front + q1.count) (by omega) hcap with ⟨e2, l2⟩ | ⟨e2, l2⟩ <;>
      omega
  constructor
  · unfold QInv
    dsimp only
    refine ⟨by simp [hb], by omega, by intro h0; omega, ?_⟩
    intro _
    refine ⟨hf, ?_⟩
    rw [hr, Nat.mod_add_mod, Nat.add_assoc]
  · apply List.ext_getElem
    · rw [qSeq_length]
      simp [qSeq_length]
    · intro i h1 h2
      rw [qSeq_length] at h1
      dsimp only at h1
      rw [← elt_eq_getElem _ _ (by rw [qSeq_length]; exact h1),
        ← elt_eq_getElem _ _ h2]
      rw [qSeq_get ⟨q1.buf.set q1.rear x, q1.front, (q1.rear + 1) % q1.capacity,
        q1.count + 1, q1.capacity⟩ i h1]
      dsimp only
      by_cases hic : i < q1.count
      · rw [elt_set_ne _ _ _ _ (fun hh => hslot i hic hh.symm)]
        rw [elt_append_left _ _ _ (by rw [qSeq_length]; exact hic)]
        rw [qSeq_get q1 i hic]
      · have hieq : i = q1.count := by omega
        subst hieq
        have : (q1.front + q1.count) % q1.capacity = q1.rear := hr.symm
        rw [this, elt_set_self _ _ _ (by omega)]
        have hlen : (qSeq q1).length = q1.count := qSeq_length q1
        rw [← hlen, elt_append_last]

theorem qEnqueue_spec [Inhabited α] (q : QState α) (x : α) (hI : QInv q) :
    QInv (qEnqueue q x) ∧ qSeq (qEnqueue q x) = qSeq q ++ [x] := by
  obtain ⟨i1, s1, c1, r1⟩ := qEnsure_spec q hI
  unfold qEnqueue
  obtain ⟨a, b⟩ := qWrite_spec (qEnsureCapacity q (q.count + 1)) x i1 r1
  exact ⟨a, by rw [b, s1]⟩

theorem qDequeue_spec [Inhabited α] (q : QState α) (hI : QInv q) (h : q.count ≠ 0) :
    qDequeueE q = .ok ⟨q.buf, (q.front + 1) % q.capacity, q.rear, q.count - 1, q.capacity⟩ ∧
    QInv (⟨q.buf, (q.front + 1) % q.capacity, q.rear, q.count - 1, q.capacity⟩ : QState α) ∧
    qSeq q = elt q.buf q.front ::
      qSeq (⟨q.buf, (q.front + 1) % q.capacity, q.rear, q.count - 1, q.capacity⟩ : QState α) := by
  obtain ⟨hb, hcc, hz, hp⟩ := hI
  have hcap : 0 < q.capacity := by omega
  obtain ⟨hf, hr⟩ := hp hcap
  refine ⟨by unfold qDequeueE; rw [if_neg h], ?_, ?_⟩
  · unfold QInv
    dsimp only
    refine ⟨hb, by omega, by intro h0; omega, ?_⟩
    intro _
    refine ⟨Nat.mod_lt _ hcap, ?_⟩
    rw [Nat.mod_add_mod]
    have harith : q.front + 1 + (q.count - 1) = q.front + q.count := by omega
    rw [harith, hr]
  · apply List.ext_getElem
    · rw [qSeq_length]
      simp [qSeq_length]
      omega
    · intro i h1 h2
      rw [qSeq_length] at h1
      rw [← elt_eq_getElem _ _ (by rw [qSeq_length]; exact h1), ← elt_eq_getElem _ _ h2]
      rw [qSeq_get q i h1]
      cases i with
      | zero =>
        rw [Nat.add_zero, Nat.mod_eq_of_lt hf, elt_cons_zero]
      | succ j =>
        have hj : j < q.count - 1 := by omega
        rw [elt_cons_succ]
        rw [qSeq_get ⟨q.buf, (q.front + 1) % q.capacity, q.rear, q.count - 1,
          q.capacity⟩ j hj]
        dsimp only
        rw [Nat.mod_add_mod]
        have harith : q.front + 1 + j = q.front + (j + 1) := by omega
        rw [harith]

/-- The operations of C3's claim. -/
inductive QOp (α : Type) where
  | enqueue (x : α)
  | dequeue
deriving Repr

/-- One concrete queue step; a `Dequeue` also reports the element it
removed (the `Peek` value at that moment), nothing when it threw `Empty`. -/
def qStepOut [Inhabited α] (q : QState α) : QOp α → QState α × List α
  | .enqueue x => (qEnqueue q x, [])
  | .dequeue =>
    match qDequeueE q with
    | .ok q2 => (q2, [elt q.buf q.front])
    | _ => (q, [])

def qRunOut [Inhabited α] : QState α → List (QOp α) → QState α × List α
  | q, [] => (q, [])
  | q, op :: ops =>
    ((qRunOut (qStepOut q op).1 ops).1,
      (qStepOut q op).2 ++ (qRunOut (qStepOut q op).1 ops).2)

/-- The abstract FIFO queue: a plain list; enqueue appends at the back,
dequeue removes (and reports) the head. -/
def aStepOut (s : List α) : QOp α → List α × List α
  | .enqueue x => (s ++ [x], [])
  | .dequeue =>
    match s with
    | [] => ([], [])
    | y :: t => (t, [y])

def aRunOut : List α → List (QOp α) → List α × List α
  | s, [] => (s, [])
  | s, op :: ops =>
    ((aRunOut (aStepOut s op).1 ops).1,
      (aStepOut s op).2 ++ (aRunOut (aStepOut s op).1 ops).2)

theorem qStepOut_spec [Inhabited α] (q : QState α) (op : QOp α) (hI : QInv q) :
    QInv (qStepOut q op).1 ∧ qSeq (qStepOut q op).1 = (aStepOut (qSeq q) op).1 ∧
    (qStepOut q op).2 = (aStepOut (qSeq q) op).2 := by
  cases op with
  | enqueue x =>
    obtain ⟨a, b⟩ := qEnqueue_spec q x hI
    exact ⟨a, b, rfl⟩
  | dequeue =>
    by_cases h0 : q.count = 0
    · have hseq : qSeq q = [] := by
        have := qSeq_length q
        rw [h0] at this
        exact List.length_eq_zero.mp this
      have hde : qDequeueE q = .emptyError := by
        unfold qDequeueE
        rw [if_pos h0]
      simp only [qStepOut, hde, aStepOut, hseq]
      exact ⟨hI, by trivial, by trivial⟩
    · obtain ⟨hok, hinv, hdec⟩ := qDequeue_spec q hI h0
      simp only [qStepOut, hok, aStepOut, hdec]
      exact ⟨hinv, by trivial, by trivial⟩

theorem qRunOut_spec [Inhabited α] :
    ∀ (ops : List (QOp α)) (q : QState α), QInv q →
    QInv (qRunOut q ops).1 ∧ qSeq (qRunOut q ops).1 = (aRunOut (qSeq q) ops).1 ∧
    (qRunOut q ops).2 = (aRunOut (qSeq q) ops).2 := by
  intro ops
  induction ops with
  | nil => intro q h; exact ⟨h, rfl, rfl⟩
  | cons op rest ih =>
    intro q h
    obtain ⟨h1, h2, h3⟩ := qStepOut_spec q op h
    obtain ⟨a, b, c⟩ := ih (qStepOut q op).1 h1
    refine ⟨a, ?_, ?_⟩
    · show qSeq (qRunOut (qStepOut q op).1 rest).1 = (aRunOut (aStepOut (qSeq q) op).1 rest).1
      rw [b, h2]
    · show (qStepOut q op).2 ++ (qRunOut (qStepOut q op).1 rest).2
        = (aStepOut (qSeq q) op).2 ++ (aRunOut (aStepOut (qSeq q) op).1 rest).2
      rw [c, h2, h3]

/-- C3: for every Circular Queue satisfying the ring invariant and every
Enqueue/Dequeue sequence (growth happens inside `qEnqueue` whenever
`count == capacity`), the dequeued elements come out in exactly the order
they were enqueued — the concrete run produces the same removal trace and
the same remaining contents as the abstract FIFO list — and any growth
reallocation re-linearizes the ring: `front = 0` in the new buffer with the
logical contents unchanged. -/
theorem queue_fifo_refinement [Inhabited α] (q : QState α) (ops : List (QOp α))
    (hI : QInv q) :
    ((qRunOut q ops).2 = (aRunOut (qSeq q) ops).2 ∧
      qSeq (qRunOut q ops).1 = (aRunOut (qSeq q) ops).1) ∧
    (∀ newCap, q.capacity < newCap →
      (qReallocate q newCap).front = 0 ∧ qSeq (qReallocate q newCap) = qSeq q) := by
  obtain ⟨a, b, c⟩ := qRunOut_spec ops q hI
  refine ⟨⟨c, b⟩, ?_⟩
  intro newCap h
  obtain ⟨_, hs, hf, _, _, _⟩ := qReallocate_grow q newCap hI h
  exact ⟨hf, hs⟩

/-- Witness for C3: the spec's scenario 3 — capacity 2, enqueue 1,2,3
(the third enqueue grows the ring mid-sequence), then dequeue until empty;
plus a growth reallocation of the initial state. -/
theorem queue_fifo_refinement_witness :
    (((qRunOut (⟨[0, 0], 0, 0, 0, 2⟩ : QState Nat)
        [QOp.enqueue 1, QOp.enqueue 2, QOp.enqueue 3,
          QOp.dequeue, QOp.dequeue, QOp.dequeue, QOp.dequeue]).2
      = (aRunOut (qSeq (⟨[0, 0], 0, 0, 0, 2⟩ : QState Nat))
        [QOp.enqueue 1, QOp.enqueue 2, QOp.enqueue 3,
          QOp.dequeue, QOp.dequeue, QOp.dequeue, QOp.dequeue]).2) ∧
      qSeq (qRunOut (⟨[0, 0], 0, 0, 0, 2⟩ : QState Nat)
        [QOp.enqueue 1, QOp.enqueue 2, QOp.enqueue 3,
          QOp.dequeue, QOp.dequeue, QOp.dequeue, QOp.dequeue]).1
      = (aRunOut (qSeq (⟨[0, 0], 0, 0, 0, 2⟩ : QState Nat))
        [QOp.enqueue 1, QOp.enqueue 2, QOp.enqueue 3,
          QOp.dequeue, QOp.dequeue, QOp.dequeue, QOp.dequeue]).1) ∧
    ((qReallocate (⟨[0, 0], 0, 0, 0, 2⟩ : QState Nat) 3).front = 0 ∧
      qSeq (qReallocate (⟨[0, 0], 0, 0, 0, 2⟩ : QState Nat) 3)
        = qSeq (⟨[0, 0], 0, 0, 0, 2⟩ : QState Nat)) :=
  ⟨(queue_fifo_refinement ⟨[0, 0], 0, 0, 0, 2⟩
      [QOp.enqueue 1, QOp.enqueue 2, QOp.enqueue 3,
        QOp.dequeue, QOp.dequeue, QOp.dequeue, QOp.dequeue] (by decide)).1,
    (queue_fifo_refinement ⟨[0, 0], 0, 0, 0, 2⟩
      [QOp.enqueue 1, QOp.enqueue 2, QOp.enqueue 3,
        QOp.dequeue, QOp.dequeue, QOp.dequeue, QOp.dequeue] (by decide)).2 3 (by decide)⟩

/-- C++ `%` is a partial operation: modulo by zero is undefined behavior. -/
def cppMod (a b : Nat) : Option Nat := if b = 0 then none else some (a % b)

/-- `Queue(std::initializer_list<T>)` of the `LinkedList.h` translation
unit: `mRear(ilist.size() % ilist.size())`, then `uninitialized_copy` into
the fresh buffer; the `mRear` initializer uses the partial modulo. -/
def queueFromInitListA (l : List α) : Option (QState α) :=
  (cppMod l.length l.length).map (fun r => ⟨l, 0, r, l.length, l.length⟩)

/-- `Queue(std::initializer_list<T>)` of the `src/unnamed/part_002`
variant: delegates to `Queue(ilist.size())`, copies, then sets
`mRear = (mCount == mCapacity) ? 0 : mCount`. -/
def queueFromInitListB (l : List α) : QState α :=
  ⟨l, 0, if l.length = l.length then 0 else l.length, l.length, l.length⟩

/-- C8: evaluating the initializer-list constructor.  The `LinkedList.h`
variant computes `0 % 0` — modulo by zero, undefined behavior — on the
empty sequence (its sibling variant guards this case), while on a nonempty
sequence it is total and yields exactly the listed elements in FIFO order
with `count` equal to the sequence length. -/
theorem queue_init_list_empty_mod_zero :
    queueFromInitListA ([] : List Nat) = none ∧
    queueFromInitListA ([10, 20] : List Nat) = some ⟨[10, 20], 0, 0, 2, 2⟩ ∧
    qSeq (⟨[10, 20], 0, 0, 2, 2⟩ : QState Nat) = [10, 20] ∧
    (⟨[10, 20], 0, 0, 2, 2⟩ : QState Nat).count = [10, 20].length ∧
    queueFromInitListB ([] : List Nat) = ⟨[], 0, 0, 0, 0⟩ :=
  ⟨rfl, by decide, by decide, rfl, by decide⟩

/-! ### Three-way comparisons (C7) -/

/-- Lexicographic three-way comparison over element order with length as
the final tiebreak — the semantics of
`std::lexicographical_compare_three_way`, which `Stack::operator<=>` calls
directly on its element ranges. -/
def lexCompare (cmp3 : α → α → Ordering) : List α → List α → Ordering
  | [], [] => .eq
  | [], _ :: _ => .lt
  | _ :: _, [] => .gt
  | a :: as, b :: bs =>
    match cmp3 a b with
    | .eq => lexCompare cmp3 as bs
    | o => o

/-- `Stack::operator<=>` over the stacks' element sequences. -/
def stackCompare (cmp3 : α → α → Ordering) (s1 s2 : StackState α) : Ordering :=
  lexCompare cmp3 s1.data s2.data

/-- `LinkedList::operator<=>`: the loop walks both node chains while both
pointers are non-null, returning the first non-equal element comparison;
after the loop: both null → equal, left null → less, else greater. -/
def linkedListCompare (cmp3 : α → α → Ordering) : List α → List α → Ordering
  | a :: as, b :: bs =>
    match cmp3 a b with
    | .eq => linkedListCompare cmp3 as bs
    | o => o
  | [], [] => .eq
  | [], _ :: _ => .lt
  | _ :: _, [] => .gt

/-- The elementwise loop of `Queue::operator<=>` (it runs only when the
counts are already known equal): compare logical elements front-to-rear,
the first difference wins. -/
def queueCompareFrom [Inhabited α] (cmp3 : α → α → Ordering) (q1 q2 : QState α)
    (i : Nat) : Ordering :=
  if h : i < q1.count then
    match cmp3 (elt q1.buf ((q1.front + i) % q1.capacity))
        (elt q2.buf ((q2.front + i) % q2.capacity)) with
    | .eq => queueCompareFrom cmp3 q1 q2 (i + 1)
    | o => o
  else .eq
termination_by q1.count - i

/-- `Queue::operator<=>`: `if (mCount != other.mCount) return mCount <=>
other.mCount;` and only then the elementwise loop. -/
def queueCompare [Inhabited α] (cmp3 : α → α → Ordering) (q1 q2 : QState α) : Ordering :=
  if q1.count ≠ q2.count then compare q1.count q2.count
  else queueCompareFrom cmp3 q1 q2 0

/-- C7 counterexample: the queues holding [2] and [1, 1].  The code compares
the counts first and returns "less"; a lexicographic comparison over the
element order (with length only as final tiebreak) returns "greater" since
2 > 1 at the first position. -/
theorem queue_compare_not_lexicographic :
    queueCompare compare (⟨[2], 0, 0, 1, 1⟩ : QState Nat)
        (⟨[1, 1], 0, 0, 2, 2⟩ : QState Nat)
      ≠ lexCompare compare (qSeq (⟨[2], 0, 0, 1, 1⟩ : QState Nat))
        (qSeq (⟨[1, 1], 0, 0, 2, 2⟩ : QState Nat)) := by decide

theorem qSeq_getElem [Inhabited α] (q : QState α) (i : Nat) (h : i < (qSeq q).length) :
    (qSeq q)[i] = elt q.buf ((q.front + i) % q.capacity) := by
  rw [← elt_eq_getElem _ _ h, qSeq_get q i (by rw [qSeq_length] at h; exact h)]

theorem lexCompare_cons (cmp3 : α → α → Ordering) (x y : α) (xs ys : List α) :
    lexCompare cmp3 (x :: xs) (y :: ys)
      = match cmp3 x y with
        | .eq => lexCompare cmp3 xs ys
        | o => o := rfl

theorem queueCompareFrom_eq_lex [Inhabited α] (cmp3 : α → α → Ordering)
    (q1 q2 : QState α) (hc : q1.count = q2.count) :
    ∀ i, queueCompareFrom cmp3 q1 q2 i
      = lexCompare cmp3 ((qSeq q1).drop i) ((qSeq q2).drop i) := by
  intro i
  induction i using queueCompareFrom.induct cmp3 q1 q2 with
  | case1 i hlt heq ih =>
    rw [queueCompareFrom, dif_pos hlt]
    rw [@List.drop_eq_getElem_cons _ i (qSeq q1) (by rw [qSeq_length]; exact hlt),
      @List.drop_eq_getElem_cons _ i (qSeq q2) (by rw [qSeq_length]; omega)]
    rw [lexCompare_cons]
    rw [qSeq_getElem q1 i (by rw [qSeq_length]; exact hlt),
      qSeq_getElem q2 i (by rw [qSeq_length]; omega)]
    rw [heq]
    exact ih
  | case2 i hlt hne =>
    rw [queueCompareFrom, dif_pos hlt]
    rw [@List.drop_eq_getElem_cons _ i (qSeq q1) (by rw [qSeq_length]; exact hlt),
      @List.drop_eq_getElem_cons _ i (qSeq q2) (by rw [qSeq_length]; omega)]
    rw [lexCompare_cons]
    rw [qSeq_getElem q1 i (by rw [qSeq_length]; exact hlt),
      qSeq_getElem q2 i (by rw [qSeq_length]; omega)]
    cases hval : cmp3 (elt q1.buf ((q1.front + i) % q1.capacity))
        (elt q2.buf ((q2.front + i) % q2.capacity)) with
    | lt => rfl
    | eq => exact absurd hval hne
    | gt => rfl
  | case3 i hge =>
    rw [queueCompareFrom, dif_neg hge]
    rw [List.drop_eq_nil_of_le (by rw [qSeq_length]; omega),
      List.drop_eq_nil_of_le (by rw [qSeq_length]; omega)]
    rfl

/-- C7 amended: Stack and LinkedList order lexicographically over logical
element order with length as the final tiebreak; the Circular Queue instead
compares the counts first (shortlex) and falls back to the elementwise
comparison only when the counts are equal. -/
theorem three_way_comparison_shapes [Inhabited α] (cmp3 : α → α → Ordering)
    (s1 s2 : StackState α) (l1 l2 : List α) (q1 q2 : QState α) :
    stackCompare cmp3 s1 s2 = lexCompare cmp3 s1.data s2.data ∧
    linkedListCompare cmp3 l1 l2 = lexCompare cmp3 l1 l2 ∧
    queueCompare cmp3 q1 q2 =
      (if q1.count = q2.count then lexCompare cmp3 (qSeq q1) (qSeq q2)
        else compare q1.count q2.count) := by
  refine ⟨rfl, ?_, ?_⟩
  · induction l1 generalizing l2 with
    | nil => cases l2 <;> rfl
    | cons a as ih =>
      cases l2 with
      | nil => rfl
      | cons b bs =>
        rw [linkedListCompare, lexCompare]
        cases cmp3 a b with
        | lt => rfl
        | eq => exact ih bs
        | gt => rfl
  · unfold queueCompare
    by_cases hc : q1.count = q2.count
    · rw [if_neg (by omega), if_pos hc]
      have := queueCompareFrom_eq_lex cmp3 q1 q2 hc 0
      rwa [List.drop_zero, List.drop_zero] at this
    · rw [if_pos hc, if_neg hc]

/-! ### The sentinel Doubly Linked List (`src/List.h`, `src/unnamed/part_000`)

Following the spec's design note (section 9), the self-referential node
pointers are modelled as a heap: a total function from addresses to link
pairs, with address `0` reserved for the sentinel and fresh positive
addresses handed out by a counter. -/

/-- One node's links (`NodeBase`). -/
structure DNode where
  prev : Nat
  next : Nat
deriving Repr, DecidableEq

/-- Sentinel-list state: link heap, stored values, fresh-address counter,
`_size`. -/
structure DLL (α : Type) where
  mem : Nat → DNode
  val : Nat → α
  fresh : Nat
  size : Nat

/-- The default-constructed list: the sentinel points at itself. -/
def dllEmpty [Inhabited α] : DLL α :=
  ⟨fun _ => ⟨0, 0⟩, fun _ => default, 1, 0⟩

/-- Single pointer-field assignment `a->next = v`. -/
def setNext (mem : Nat → DNode) (a v : Nat) : Nat → DNode :=
  fun b => if b = a then ⟨(mem a).prev, v⟩ else mem b

/-- Single pointer-field assignment `a->prev = v`. -/
def setPrev (mem : Nat → DNode) (a v : Nat) : Nat → DNode :=
  fun b => if b = a then ⟨v, (mem a).next⟩ else mem b

/-- `List::link(prev, node, next)`: the four assignments in source order
(`prev->next = node; node->prev = prev; node->next = next; next->prev = node`). -/
def linkMem (mem : Nat → DNode) (p a n : Nat) : Nat → DNode :=
  setPrev (setNext (setPrev (setNext mem p a) a p) a n) n a

/-- `List::unlink(node)`: `node->prev->next = node->next;
node->next->prev = node->prev;` (the second statement re-reads the node's
fields from the updated memory, exactly as the source does). -/
def unlinkMem (mem : Nat → DNode) (a : Nat) : Nat → DNode :=
  setPrev (setNext mem (mem a).prev (mem a).next)
    ((setNext mem (mem a).prev (mem a).next) a).next
    ((setNext mem (mem a).prev (mem a).next) a).prev

/-- Follow a pointer field `k` times starting from `a`. -/
def fIter (f : Nat → Nat) : Nat → Nat → Nat
  | 0, a => a
  | k + 1, a => fIter f k (f a)

def nextF (s : DLL α) : Nat → Nat := fun a => (s.mem a).next

def prevF (s : DLL α) : Nat → Nat := fun a => (s.mem a).prev

/-- `List::node_at(pos)`: traverse forward from `sentinel.next` when
`pos < size/2`, else backward from the sentinel `size - pos` steps. -/
def node_at (s : DLL α) (pos : Nat) : Nat :=
  if pos < s.size / 2 then fIter (nextF s) pos ((s.mem 0).next)
  else fIter (prevF s) (s.size - pos) 0

/-- `List::emplace(pos, ...)` / `insert(pos, value)`: `OutOfRange` iff
`pos > size` (checked before any mutation); otherwise a fresh node is
linked before the node at `pos` (before the sentinel when `pos == size`). -/
def listInsertAt [Inhabited α] (s : DLL α) (pos : Nat) (x : α) : Except Unit (DLL α) :=
  if pos > s.size then .error ()
  else
    .ok ⟨linkMem s.mem
          (s.mem (if pos = s.size then 0 else node_at s pos)).prev
          s.fresh
          (if pos = s.size then 0 else node_at s pos),
      fun b => if b = s.fresh then x else s.val b,
      s.fresh + 1, s.size + 1⟩

/-- `List::erase(pos)`: `OutOfRange` iff `pos ≥ size`; otherwise unlink and
destroy the node at `pos`. -/
def listEraseAt [Inhabited α] (s : DLL α) (pos : Nat) : Except Unit (DLL α) :=
  if pos ≥ s.size then .error ()
  else .ok ⟨unlinkMem s.mem (node_at s pos), s.val, s.fresh, s.size - 1⟩

/-- `List::front`: `assert(!empty())`, then the value of `sentinel.next`. -/
def listFront [Inhabited α] (s : DLL α) : OpResult α :=
  if s.size = 0 then .assertViolation else .ok (s.val ((s.mem 0).next))

/-- `List::back`: `assert(!empty())`, then the value of `sentinel.prev`. -/
def listBack [Inhabited α] (s : DLL α) : OpResult α :=
  if s.size = 0 then .assertViolation else .ok (s.val ((s.mem 0).prev))

/-- `Path f c l d`: following `f` from `c` steps through exactly the
addresses of `l` in order and then reaches `d`. -/
def Path (f : Nat → Nat) : Nat → List Nat → Nat → Prop
  | c, [], d => f c = d
  | c, b :: r, d => f c = b ∧ Path f b r d

/-- The last address of the walk `c :: l`. -/
def endOf (c : Nat) : List Nat → Nat
  | [] => c
  | b :: r => endOf b r

/-- The sentinel-ring representation invariant: a duplicate-free list of
`size` nonzero addresses below `fresh` forms the next-ring and, reversed,
the prev-ring through the sentinel `0`. -/
def Rep (s : DLL α) (L : List Nat) : Prop :=
  s.size = L.length ∧ (0 :: L).Nodup ∧ (∀ a ∈ L, a < s.fresh) ∧ 0 < s.fresh ∧
  Path (nextF s) 0 L 0 ∧ Path (prevF s) 0 L.reverse 0

theorem endOf_mem (c : Nat) (l : List Nat) : endOf c l ∈ c :: l := by
  induction l generalizing c with
  | nil => exact List.mem_singleton.mpr rfl
  | cons b r ih =>
    rw [endOf]
    exact List.mem_cons.mpr (Or.inr (ih b))

theorem endOf_eq_reverse_headD (c : Nat) (l : List Nat) :
    endOf c l = l.reverse.headD c := by
  induction l generalizing c with
  | nil => rfl
  | cons b r ih =>
    rw [endOf, ih b, List.reverse_cons]
    cases hr : r.reverse with
    | nil =>
      have : r = [] := by
        have := congrArg List.reverse hr
        simpa using this
      simp [this]
    | cons y ys => simp [hr]

theorem Path_append_cons (f : Nat → Nat) (l1 l2 : List Nat) (b c d : Nat) :
    Path f c (l1 ++ b :: l2) d ↔ Path f c l1 b ∧ Path f b l2 d := by
  induction l1 generalizing c with
  | nil => exact Iff.rfl
  | cons y ys ih =>
    constructor
    · intro h
      obtain ⟨h1, h2⟩ := h
      obtain ⟨a1, a2⟩ := (ih y).mp h2
      exact ⟨⟨h1, a1⟩, a2⟩
    · rintro ⟨⟨h1, a1⟩, a2⟩
      exact ⟨h1, (ih y).mpr ⟨a1, a2⟩⟩

theorem Path_congr {f f' : Nat → Nat} {c d : Nat} {l : List Nat}
    (hsame : ∀ x ∈ c :: l, f' x = f x) (h : Path f c l d) : Path f' c l d := by
  induction l generalizing c with
  | nil => rw [Path] at h ⊢; rw [hsame c (List.mem_cons_self c []), h]
  | cons b r ih =>
    rw [Path] at h ⊢
    refine ⟨by rw [hsame c (List.mem_cons_self c _), h.1], ?_⟩
    exact ih (fun x hx => hsame x (List.mem_cons.mpr (Or.inr hx))) h.2

theorem Path_head {f : Nat → Nat} {c d : Nat} {l : List Nat} (h : Path f c l d) :
    f c = l.headD d := by
  cases l with
  | nil => exact h
  | cons b r => exact h.1

theorem Path_retarget {f f' : Nat → Nat} {c d d' : Nat} {l : List Nat}
    (h : Path f c l d) (hnd : (c :: l).Nodup)
    (hsame : ∀ x ∈ c :: l, x ≠ endOf c l → f' x = f x)
    (hend : f' (endOf c l) = d') : Path f' c l d' := by
  induction l generalizing c with
  | nil => exact hend
  | cons b r ih =>
    rw [Path] at h ⊢
    have hce : c ≠ endOf c (b :: r) := by
      intro he
      rw [endOf] at he
      have := endOf_mem b r
      rw [← he] at this
      exact (List.nodup_cons.mp hnd).1 this
    refine ⟨by rw [hsame c (List.mem_cons_self c _) hce, h.1], ?_⟩
    exact ih h.2 (List.nodup_cons.mp hnd).2
      (fun x hx hxe => hsame x (List.mem_cons.mpr (Or.inr hx)) hxe) hend

theorem Path_iter {f : Nat → Nat} {c d : Nat} {l : List Nat} (h : Path f c l d) :
    fIter f (l.length + 1) c = d := by
  induction l generalizing c with
  | nil => exact h
  | cons b r ih =>
    rw [Path] at h
    show fIter f (r.length + 1) (f c) = d
    rw [h.1]
    exact ih h.2

theorem Path_get {f : Nat → Nat} {c d : Nat} {l : List Nat} (h : Path f c l d) :
    ∀ i, i < l.length → fIter f (i + 1) c = l.getD i 0 := by
  induction l generalizing c with
  | nil => intro i hi; exact absurd hi (by simp)
  | cons b r ih =>
    intro i hi
    cases i with
    | zero =>
      show fIter f 0 (f c) = b
      rw [Path] at h
      exact h.1
    | succ j =>
      show fIter f (j + 1) (f c) = (b :: r).getD (j + 1) 0
      rw [Path] at h
      rw [h.1]
      exact ih h.2 j (by simpa using hi)

theorem setNext_next (mem : Nat → DNode) (a v b : Nat) :
    ((setNext mem a v) b).next = if b = a then v else (mem b).next := by
  unfold setNext
  split <;> rfl

theorem setNext_prev (mem : Nat → DNode) (a v b : Nat) :
    ((setNext mem a v) b).prev = (mem b).prev := by
  unfold setNext
  split
  · rename_i h
    rw [h]
  · rfl

theorem setPrev_prev (mem : Nat → DNode) (a v b : Nat) :
    ((setPrev mem a v) b).prev = if b = a then v else (mem b).prev := by
  unfold setPrev
  split <;> rfl

theorem setPrev_next (mem : Nat → DNode) (a v b : Nat) :
    ((setPrev mem a v) b).next = (mem b).next := by
  unfold setPrev
  split
  · rename_i h
    rw [h]
  · rfl

theorem linkMem_next (mem : Nat → DNode) (p a n b : Nat) (hba : b ≠ a) (hbp : b ≠ p) :
    ((linkMem mem p a n) b).next = (mem b).next := by
  unfold linkMem
  rw [setPrev_next, setNext_next, if_neg hba, setPrev_next, setNext_next, if_neg hbp]

theorem linkMem_next_p (mem : Nat → DNode) (p a n : Nat) (hpa : p ≠ a) :
    ((linkMem mem p a n) p).next = a := by
  unfold linkMem
  rw [setPrev_next, setNext_next, if_neg hpa, setPrev_next, setNext_next, if_pos rfl]

theorem linkMem_next_a (mem : Nat → DNode) (p a n : Nat) :
    ((linkMem mem p a n) a).next = n := by
  unfold linkMem
  rw [setPrev_next, setNext_next, if_pos rfl]

theorem linkMem_prev (mem : Nat → DNode) (p a n b : Nat) (hbn : b ≠ n) (hba : b ≠ a) :
    ((linkMem mem p a n) b).prev = (mem b).prev := by
  unfold linkMem
  rw [setPrev_prev, if_neg hbn, setNext_prev, setPrev_prev, if_neg hba, setNext_prev]

theorem linkMem_prev_n (mem : Nat → DNode) (p a n : Nat) :
    ((linkMem mem p a n) n).prev = a := by
  unfold linkMem
  rw [setPrev_prev, if_pos rfl]

theorem linkMem_prev_a (mem : Nat → DNode) (p a n : Nat) (han : a ≠ n) :
    ((linkMem mem p a n) a).prev = p := by
  unfold linkMem
  rw [setPrev_prev, if_neg han, setNext_prev, setPrev_prev, if_pos rfl]

theorem unlinkMem_eq (mem : Nat → DNode) (a : Nat) (hap : (mem a).prev ≠ a) :
    unlinkMem mem a
      = setPrev (setNext mem (mem a).prev (mem a).next) (mem a).next (mem a).prev := by
  unfold unlinkMem
  have h1 : ((setNext mem (mem a).prev (mem a).next) a).next = (mem a).next := by
    rw [setNext_next, if_neg (fun h => hap h.symm)]
  have h2 : ((setNext mem (mem a).prev (mem a).next) a).prev = (mem a).prev :=
    setNext_prev _ _ _ _
  rw [h1, h2]

theorem unlinkMem_next (mem : Nat → DNode) (a b : Nat) (hap : (mem a).prev ≠ a)
    (hbp : b ≠ (mem a).prev) : ((unlinkMem mem a) b).next = (mem b).next := by
  rw [unlinkMem_eq mem a hap, setPrev_next, setNext_next, if_neg hbp]

theorem unlinkMem_next_p (mem : Nat → DNode) (a : Nat) (hap : (mem a).prev ≠ a) :
    ((unlinkMem mem a) (mem a).prev).next = (mem a).next := by
  rw [unlinkMem_eq mem a hap, setPrev_next, setNext_next, if_pos rfl]

theorem unlinkMem_prev (mem : Nat → DNode) (a b : Nat) (hap : (mem a).prev ≠ a)
    (hbn : b ≠ (mem a).next) : ((unlinkMem mem a) b).prev = (mem b).prev := by
  rw [unlinkMem_eq mem a hap, setPrev_prev, if_neg hbn, setNext_prev]

theorem unlinkMem_prev_n (mem : Nat → DNode) (a : Nat) (hap : (mem a).prev ≠ a) :
    ((unlinkMem mem a) (mem a).next).prev = (mem a).prev := by
  rw [unlinkMem_eq mem a hap, setPrev_prev, if_pos rfl]

theorem getD_reverse (l : List Nat) (j : Nat) (h : j < l.length) :
    l.reverse.getD j 0 = l.getD (l.length - 1 - j) 0 := by
  rw [List.getD_eq_getElem _ _ (by simpa using h), List.getD_eq_getElem _ _ (by omega)]
  rw [List.getElem_reverse]

theorem node_at_spec {s : DLL α} {L : List Nat} (hrep : Rep s L) {pos : Nat}
    (hpos : pos < s.size) : node_at s pos = L.getD pos 0 := by
  obtain ⟨hsz, hnd, hb, hf, hnx, hpv⟩ := hrep
  unfold node_at
  split
  · exact Path_get hnx pos (by omega)
  · have h1 : s.size - pos = (s.size - pos - 1) + 1 := by omega
    rw [h1, Path_get hpv (s.size - pos - 1) (by rw [List.length_reverse]; omega)]
    rw [getD_reverse L _ (by omega)]
    have h2 : L.length - 1 - (s.size - pos - 1) = pos := by omega
    rw [h2]

theorem ring_insert {f f' : Nat → Nat} {l1 l2 : List Nat} {a : Nat}
    (hnd : (0 :: (l1 ++ l2)).Nodup) (hmem : a ∉ 0 :: (l1 ++ l2))
    (hold : Path f 0 (l1 ++ l2) 0)
    (hsame : ∀ x ∈ 0 :: (l1 ++ l2), x ≠ endOf 0 l1 → f' x = f x)
    (hend : f' (endOf 0 l1) = a)
    (hnew : f' a = l2.headD 0) :
    Path f' 0 (l1 ++ a :: l2) 0 := by
  have hnd1 : (0 :: l1).Nodup := by
    refine List.Nodup.sublist ?_ hnd
    exact List.Sublist.cons₂ 0 (List.sublist_append_left l1 l2)
  have hsame1 : ∀ x ∈ 0 :: l1, x ≠ endOf 0 l1 → f' x = f x := by
    intro x hx hxe
    refine hsame x ?_ hxe
    rcases List.mem_cons.mp hx with rfl | hx
    · exact List.mem_cons_self _ _
    · exact List.mem_cons.mpr (Or.inr (List.mem_append.mpr (Or.inl hx)))
  have hdisj : ∀ x, x ∈ l2 → x ∉ 0 :: l1 := by
    intro x hx2 hx1
    rcases List.mem_cons.mp hx1 with rfl | hx1
    · exact (List.nodup_cons.mp hnd).1 (List.mem_append.mpr (Or.inr hx2))
    · have h2 := (List.nodup_cons.mp hnd).2
      rw [List.nodup_append] at h2
      exact h2.2.2 hx1 hx2
  rw [Path_append_cons]
  constructor
  · cases l2 with
    | nil =>
      rw [List.append_nil] at hold
      exact Path_retarget hold hnd1 hsame1 hend
    | cons b r =>
      obtain ⟨p1, p2⟩ := (Path_append_cons f l1 r b 0 0).mp hold
      exact Path_retarget p1 hnd1 hsame1 hend
  · cases l2 with
    | nil => exact hnew
    | cons b r =>
      obtain ⟨p1, p2⟩ := (Path_append_cons f l1 r b 0 0).mp hold
      refine ⟨hnew, ?_⟩
      refine Path_congr ?_ p2
      intro x hx
      refine hsame x ?_ ?_
      · rcases List.mem_cons.mp hx with rfl | hx
        · exact List.mem_cons.mpr (Or.inr (List.mem_append.mpr (Or.inr (List.mem_cons_self _ _))))
        · exact List.mem_cons.mpr (Or.inr (List.mem_append.mpr
            (Or.inr (List.mem_cons.mpr (Or.inr hx)))))
      · intro he
        have hxl2 : x ∈ b :: r := hx
        have := hdisj x hxl2
        rw [he] at this
        exact this (endOf_mem 0 l1)

theorem ring_erase {f f' : Nat → Nat} {l1 l2 : List Nat} {b : Nat}
    (hnd : (0 :: (l1 ++ b :: l2)).Nodup)
    (hold : Path f 0 (l1 ++ b :: l2) 0)
    (hsame : ∀ x ∈ 0 :: (l1 ++ l2), x ≠ endOf 0 l1 → f' x = f x)
    (hend : f' (endOf 0 l1) = l2.headD 0) :
    Path f' 0 (l1 ++ l2) 0 := by
  have hnd1 : (0 :: l1).Nodup := by
    refine List.Nodup.sublist ?_ hnd
    exact List.Sublist.cons₂ 0 (List.sublist_append_left l1 _)
  have hsame1 : ∀ x ∈ 0 :: l1, x ≠ endOf 0 l1 → f' x = f x := by
    intro x hx hxe
    refine hsame x ?_ hxe
    rcases List.mem_cons.mp hx with rfl | hx
    · exact List.mem_cons_self _ _
    · exact List.mem_cons.mpr (Or.inr (List.mem_append.mpr (Or.inl hx)))
  have hdisj : ∀ x, x ∈ l2 → x ∉ 0 :: l1 := by
    intro x hx2 hx1
    rcases List.mem_cons.mp hx1 with rfl | hx1
    · exact (List.nodup_cons.mp hnd).1
        (List.mem_append.mpr (Or.inr (List.mem_cons.mpr (Or.inr hx2))))
    · have h2 := (List.nodup_cons.mp hnd).2
      rw [List.nodup_append] at h2
      exact h2.2.2 hx1 (List.mem_cons.mpr (Or.inr hx2))
  obtain ⟨p1, p2⟩ := (Path_append_cons f l1 l2 b 0 0).mp hold
  cases l2 with
  | nil =>
    rw [List.append_nil]
    exact Path_retarget p1 hnd1 hsame1 hend
  | cons c r =>
    rw [Path_append_cons]
    refine ⟨Path_retarget p1 hnd1 hsame1 hend, ?_⟩
    refine Path_congr ?_ p2.2
    intro x hx
    refine hsame x ?_ ?_
    · rcases List.mem_cons.mp hx with rfl | hx
      · exact List.mem_cons.mpr (Or.inr (List.mem_append.mpr (Or.inr (List.mem_cons_self _ _))))
      · exact List.mem_cons.mpr (Or.inr (List.mem_append.mpr
          (Or.inr (List.mem_cons.mpr (Or.inr hx)))))
    · intro he
      have := hdisj x hx
      rw [he] at this
      exact this (endOf_mem 0 l1)

theorem reverse_middle (l1 l2 : List Nat) (a : Nat) :
    (l1 ++ a :: l2).reverse = l2.reverse ++ a :: l1.reverse := by
  simp [List.reverse_append]

theorem listInsertAt_rep [Inhabited α] (s : DLL α) (L : List Nat) (pos : Nat) (x : α)
    (hrep : Rep s L) (hpos : pos ≤ s.size) :
    ∃ s2, listInsertAt s pos x = .ok s2 ∧
      Rep s2 (L.take pos ++ s.fresh :: L.drop pos) := by
  obtain ⟨hsz, hnd, hbnd, hf, hnx, hpv⟩ := hrep
  have hsplit : L.take pos ++ L.drop pos = L := List.take_append_drop pos L
  have hlen1 : (L.take pos).length = pos := by rw [List.length_take]; omega
  have hn : (if pos = s.size then 0 else node_at s pos) = (L.drop pos).headD 0 := by
    by_cases hpe : pos = s.size
    · rw [if_pos hpe, List.drop_eq_nil_of_le (by omega)]
      rfl
    · rw [if_neg hpe]
      rw [node_at_spec ⟨hsz, hnd, hbnd, hf, hnx, hpv⟩ (by omega)]
      rw [@List.drop_eq_getElem_cons _ pos L (by omega)]
      rw [List.getD_eq_getElem _ _ (by omega)]
      rfl
  have hprevchain : Path (prevF s) 0 ((L.drop pos).reverse ++ (L.take pos).reverse) 0 := by
    rw [← List.reverse_append, hsplit]
    exact hpv
  have hp : prevF s ((L.drop pos).headD 0) = endOf 0 (L.take pos) := by
    rw [endOf_eq_reverse_headD]
    cases hd : L.drop pos with
    | nil =>
      rw [hd] at hprevchain
      simp only [List.reverse_nil, List.nil_append] at hprevchain
      exact Path_head hprevchain
    | cons c r =>
      rw [hd] at hprevchain
      have hre : (c :: r).reverse ++ (L.take pos).reverse
          = r.reverse ++ c :: (L.take pos).reverse := by simp
      rw [hre] at hprevchain
      obtain ⟨q1, q2⟩ := (Path_append_cons _ _ _ _ _ _).mp hprevchain
      have := Path_head q2
      simpa using this
  have hane : ∀ y ∈ 0 :: (L.take pos ++ L.drop pos), y ≠ s.fresh := by
    intro y hy
    rcases List.mem_cons.mp hy with rfl | hy
    · omega
    · rw [hsplit] at hy
      have := hbnd y hy
      omega
  have hmem0 : ∀ y, y ∈ L.take pos ∨ y ∈ L.drop pos → y ∈ L := by
    intro y hy
    rw [← hsplit]
    exact List.mem_append.mpr hy
  refine ⟨⟨linkMem s.mem
      (s.mem (if pos = s.size then 0 else node_at s pos)).prev s.fresh
      (if pos = s.size then 0 else node_at s pos),
    fun b => if b = s.fresh then x else s.val b, s.fresh + 1, s.size + 1⟩, ?_, ?_⟩
  · unfold listInsertAt
    rw [if_neg (by omega)]
  · rw [hn]
    have hPdef : prevF s ((L.drop pos).headD 0)
        = (s.mem ((L.drop pos).headD 0)).prev := rfl
    have hEmem : endOf 0 (L.take pos) ∈ 0 :: L.take pos := endOf_mem _ _
    have hEnotfresh : endOf 0 (L.take pos) ≠ s.fresh := by
      apply hane
      rcases List.mem_cons.mp hEmem with he | he
      · rw [he]
        exact List.mem_cons_self _ _
      · exact List.mem_cons.mpr (Or.inr (List.mem_append.mpr (Or.inl he)))
    have hNnotfresh : (L.drop pos).headD 0 ≠ s.fresh := by
      cases hd : L.drop pos with
      | nil =>
        simp only [List.headD_nil]
        omega
      | cons c r =>
        simp only [List.headD_cons]
        apply hane
        refine List.mem_cons.mpr (Or.inr (List.mem_append.mpr (Or.inr ?_)))
        rw [hd]
        exact List.mem_cons_self _ _
    have hPE : (s.mem ((L.drop pos).headD 0)).prev = endOf 0 (L.take pos) := by
      rw [← hPdef, hp]
    refine ⟨?_, ?_, ?_, by show 0 < s.fresh + 1; omega, ?_, ?_⟩
    · show s.size + 1 = _
      simp only [List.length_append, List.length_cons, List.length_drop]
      omega
    · have hform : (0 :: (L.take pos ++ s.fresh :: L.drop pos))
          = (0 :: L.take pos) ++ s.fresh :: L.drop pos := by simp
      rw [hform, List.nodup_middle]
      constructor
      · intro hcon hmem2
        exact Ne.symm (hane hcon hmem2)
      · have : (0 :: L.take pos) ++ L.drop pos = 0 :: (L.take pos ++ L.drop pos) := by simp
        rw [this, hsplit]
        exact hnd
    · intro y hy
      show y < s.fresh + 1
      rcases List.mem_append.mp hy with hy | hy
      · have := hbnd y (hmem0 y (Or.inl hy))
        omega
      · rcases List.mem_cons.mp hy with rfl | hy
        · omega
        · have := hbnd y (hmem0 y (Or.inr hy))
          omega
    · -- next-pointer ring
      show Path (fun b => ((linkMem s.mem (s.mem ((L.drop pos).headD 0)).prev s.fresh
        ((L.drop pos).headD 0)) b).next) 0 (L.take pos ++ s.fresh :: L.drop pos) 0
      apply ring_insert (f := fun b => (s.mem b).next)
      · rw [hsplit]
        exact hnd
      · intro hcon
        exact hane _ hcon rfl
      · rw [hsplit]
        exact hnx
      · intro y hy hye
        apply linkMem_next
        · exact hane y hy
        · rw [hPE]
          exact hye
      · rw [hPE]
        apply linkMem_next_p
        exact hEnotfresh
      · exact linkMem_next_a _ _ _ _
    · -- prev-pointer ring
      rw [reverse_middle]
      show Path (fun b => ((linkMem s.mem (s.mem ((L.drop pos).headD 0)).prev s.fresh
        ((L.drop pos).headD 0)) b).prev) 0 ((L.drop pos).reverse ++ s.fresh ::
          (L.take pos).reverse) 0
      have hEnd2 : endOf 0 (L.drop pos).reverse = (L.drop pos).headD 0 := by
        rw [endOf_eq_reverse_headD, List.reverse_reverse]
      apply ring_insert (f := fun b => (s.mem b).prev)
      · have hperm : (0 :: (L.take pos ++ L.drop pos)).Perm
            (0 :: ((L.drop pos).reverse ++ (L.take pos).reverse)) := by
          refine List.Perm.cons 0 ?_
          have : (L.drop pos).reverse ++ (L.take pos).reverse
              = (L.take pos ++ L.drop pos).reverse := by
            rw [List.reverse_append]
          rw [this]
          exact (List.reverse_perm _).symm
        refine hperm.nodup ?_
        rw [hsplit]
        exact hnd
      · intro hcon
        apply hane s.fresh ?_ rfl
        rcases List.mem_cons.mp hcon with he | he
        · rw [he]
          exact List.mem_cons_self _ _
        · refine List.mem_cons.mpr (Or.inr ?_)
          rcases List.mem_append.mp he with h2 | h2
          · exact List.mem_append.mpr (Or.inr (List.mem_reverse.mp h2))
          · exact List.mem_append.mpr (Or.inl (List.mem_reverse.mp h2))
      · exact hprevchain
      · intro y hy hye
        apply linkMem_prev
        · rw [← hEnd2]
          exact hye
        · apply hane
          rcases List.mem_cons.mp hy with he | he
          · rw [he]
            exact List.mem_cons_self _ _
          · refine List.mem_cons.mpr (Or.inr ?_)
            rcases List.mem_append.mp he with h2 | h2
            · exact List.mem_append.mpr (Or.inr (List.mem_reverse.mp h2))
            · exact List.mem_append.mpr (Or.inl (List.mem_reverse.mp h2))
      · rw [hEnd2]
        exact linkMem_prev_n _ _ _ _
      · rw [linkMem_prev_a _ _ _ _ (fun he => hNnotfresh he.symm), hPE,
          endOf_eq_reverse_headD]

theorem listEraseAt_rep [Inhabited α] (s : DLL α) (L : List Nat) (pos : Nat)
    (hrep : Rep s L) (hpos : pos < s.size) :
    ∃ s2, listEraseAt s pos = .ok s2 ∧
      Rep s2 (L.take pos ++ L.drop (pos + 1)) := by
  obtain ⟨hsz, hnd, hbnd, hf, hnx, hpv⟩ := hrep
  have hlen1 : (L.take pos).length = pos := by rw [List.length_take]; omega
  have hb : node_at s pos = L.getD pos 0 :=
    node_at_spec ⟨hsz, hnd, hbnd, hf, hnx, hpv⟩ hpos
  have hLsplit : L = L.take pos ++ L.getD pos 0 :: L.drop (pos + 1) := by
    rw [List.getD_eq_getElem _ _ (by omega)]
    rw [← @List.drop_eq_getElem_cons _ pos L (by omega)]
    rw [List.take_append_drop]
  have hndfull : (0 :: (L.take pos ++ L.getD pos 0 :: L.drop (pos + 1))).Nodup := by
    rw [← hLsplit]
    exact hnd
  have hnx2 : Path (nextF s) 0 (L.take pos ++ L.getD pos 0 :: L.drop (pos + 1)) 0 := by
    rw [← hLsplit]
    exact hnx
  have hpv2 : Path (prevF s) 0
      ((L.drop (pos + 1)).reverse ++ L.getD pos 0 :: (L.take pos).reverse) 0 := by
    rw [← reverse_middle]
    rw [← hLsplit]
    exact hpv
  obtain ⟨pn1, pn2⟩ := (Path_append_cons _ _ _ _ _ _).mp hnx2
  obtain ⟨pp1, pp2⟩ := (Path_append_cons _ _ _ _ _ _).mp hpv2
  have hnext_b : (s.mem (L.getD pos 0)).next = (L.drop (pos + 1)).headD 0 := Path_head pn2
  have hprev_b : (s.mem (L.getD pos 0)).prev = endOf 0 (L.take pos) := by
    rw [endOf_eq_reverse_headD]
    exact Path_head pp2
  have hBnotin : L.getD pos 0 ∉ 0 :: (L.take pos ++ L.drop (pos + 1)) := by
    have hform : (0 :: (L.take pos ++ L.getD pos 0 :: L.drop (pos + 1)))
        = (0 :: L.take pos) ++ L.getD pos 0 :: L.drop (pos + 1) := by simp
    have h2 := hndfull
    rw [hform, List.nodup_middle] at h2
    have h3 := (List.nodup_cons.mp h2).1
    simpa using h3
  have hap : (s.mem (L.getD pos 0)).prev ≠ L.getD pos 0 := by
    rw [hprev_b]
    intro he
    apply hBnotin
    rw [← he]
    rcases List.mem_cons.mp (endOf_mem 0 (L.take pos)) with h2 | h2
    · rw [h2]
      exact List.mem_cons_self _ _
    · exact List.mem_cons.mpr (Or.inr (List.mem_append.mpr (Or.inl h2)))
  have hEnd2 : endOf 0 (L.drop (pos + 1)).reverse = (L.drop (pos + 1)).headD 0 := by
    rw [endOf_eq_reverse_headD, List.reverse_reverse]
  have hndsmall : (0 :: (L.take pos ++ L.drop (pos + 1))).Nodup := by
    refine List.Nodup.sublist ?_ hndfull
    refine List.Sublist.cons₂ 0 ?_
    exact List.Sublist.append_left (List.sublist_cons_self _ _) _
  refine ⟨⟨unlinkMem s.mem (node_at s pos), s.val, s.fresh, s.size - 1⟩, ?_, ?_⟩
  · unfold listEraseAt
    rw [if_neg (by omega)]
  · rw [hb]
    refine ⟨?_, hndsmall, ?_, hf, ?_, ?_⟩
    · show s.size - 1 = _
      have := congrArg List.length hLsplit
      simp only [List.length_append, List.length_cons] at this ⊢
      omega
    · intro y hy
      apply hbnd
      rw [hLsplit]
      rcases List.mem_append.mp hy with h2 | h2
      · exact List.mem_append.mpr (Or.inl h2)
      · exact List.mem_append.mpr (Or.inr (List.mem_cons.mpr (Or.inr h2)))
    · -- next-pointer ring
      apply ring_erase (f := fun z => (s.mem z).next) (b := L.getD pos 0) hndfull hnx2
      · intro y hy hye
        apply unlinkMem_next _ _ _ hap
        rw [hprev_b]
        exact hye
      · show ((unlinkMem s.mem (L.getD pos 0)) (endOf 0 (L.take pos))).next
          = (L.drop (pos + 1)).headD 0
        rw [← hprev_b, unlinkMem_next_p _ _ hap, hnext_b]
    · -- prev-pointer ring
      rw [List.reverse_append]
      apply ring_erase (f := fun z => (s.mem z).prev) (b := L.getD pos 0) ?_ hpv2
      · intro y hy hye
        apply unlinkMem_prev _ _ _ hap
        rw [hnext_b, ← hEnd2]
        exact hye
      · show ((unlinkMem s.mem (L.getD pos 0)) (endOf 0 (L.drop (pos + 1)).reverse)).prev
          = (L.take pos).reverse.headD 0
        rw [hEnd2, ← hnext_b, unlinkMem_prev_n _ _ hap, hprev_b, endOf_eq_reverse_headD]
      · refine List.Perm.nodup ?_ hndfull
        refine List.Perm.cons 0 ?_
        have : (L.drop (pos + 1)).reverse ++ L.getD pos 0 :: (L.take pos).reverse
            = (L.take pos ++ L.getD pos 0 :: L.drop (pos + 1)).reverse := by
          rw [reverse_middle]
        rw [this]
        exact (List.reverse_perm _).symm

/-- The operations of C9's claim: positional insertions and removals. -/
inductive LOp (α : Type) where
  | insertAt (pos : Nat) (x : α)
  | eraseAt (pos : Nat)

/-- One step on the list; an operation that throws `OutOfRange` leaves the
state unchanged. -/
def lStep [Inhabited α] (s : DLL α) : LOp α → DLL α
  | .insertAt pos x =>
    match listInsertAt s pos x with
    | .ok s2 => s2
    | .error _ => s
  | .eraseAt pos =>
    match listEraseAt s pos with
    | .ok s2 => s2
    | .error _ => s

def lRun [Inhabited α] (ops : List (LOp α)) : DLL α :=
  ops.foldl lStep dllEmpty

theorem dllEmpty_rep [Inhabited α] : Rep (dllEmpty : DLL α) [] :=
  ⟨rfl, by simp, by simp, Nat.one_pos, rfl, rfl⟩

theorem lStep_rep [Inhabited α] (s : DLL α) (op : LOp α) (L : List Nat)
    (h : Rep s L) : ∃ L2, Rep (lStep s op) L2 := by
  cases op with
  | insertAt pos x =>
    simp only [lStep]
    by_cases hle : pos ≤ s.size
    · obtain ⟨s2, heq, hrep⟩ := listInsertAt_rep s L pos x h hle
      rw [heq]
      exact ⟨_, hrep⟩
    · have herr : listInsertAt s pos x = .error () := by
        unfold listInsertAt
        rw [if_pos (by omega)]
      rw [herr]
      exact ⟨L, h⟩
  | eraseAt pos =>
    simp only [lStep]
    by_cases hlt : pos < s.size
    · obtain ⟨s2, heq, hrep⟩ := listEraseAt_rep s L pos h hlt
      rw [heq]
      exact ⟨_, hrep⟩
    · have herr : listEraseAt s pos = .error () := by
        unfold listEraseAt
        rw [if_pos (by omega)]
      rw [herr]
      exact ⟨L, h⟩

theorem lRun_rep [Inhabited α] (ops : List (LOp α)) : ∃ L, Rep (lRun ops) L := by
  unfold lRun
  have haux : ∀ (l : List (LOp α)) (s : DLL α) (L : List Nat), Rep s L →
      ∃ L2, Rep (l.foldl lStep s) L2 := by
    intro l
    induction l with
    | nil => intro s L h; exact ⟨L, h⟩
    | cons op rest ih =>
      intro s L h
      rw [List.foldl_cons]
      obtain ⟨L2, h2⟩ := lStep_rep s op L h
      exact ih _ L2 h2
  exact haux ops dllEmpty [] dllEmpty_rep

theorem rep_ring_closure [Inhabited α] (s : DLL α) (L : List Nat) (h : Rep s L) :
    fIter (nextF s) (s.size + 1) 0 = 0 ∧ fIter (prevF s) (s.size + 1) 0 = 0 := by
  obtain ⟨hsz, _, _, _, hnx, hpv⟩ := h
  constructor
  · rw [hsz]
    exact Path_iter hnx
  · rw [hsz]
    have := Path_iter hpv
    rwa [List.length_reverse] at this

/-- C9 counterexample: insert one element into the empty list; the list has
size 1, yet following `next` from the sentinel exactly `size` (= 1) times
lands on the inserted node, not back on the sentinel — the ring closes only
after `size + 1` steps. -/
theorem sentinel_traversal_not_size_steps :
    fIter (nextF (lStep (dllEmpty : DLL Nat) (LOp.insertAt 0 42)))
      (lStep (dllEmpty : DLL Nat) (LOp.insertAt 0 42)).size 0 ≠ 0 := by decide

/-- C9 amended: after any sequence of insertions and removals starting from
the empty list, traversing `next` from the sentinel exactly `size + 1` times
returns to the sentinel (equivalently, `size` steps starting from the
sentinel's successor), and likewise for `prev` — ring closure in both
directions. -/
theorem sentinel_ring_closure [Inhabited α] (ops : List (LOp α)) :
    fIter (nextF (lRun ops)) ((lRun ops).size + 1) 0 = 0 ∧
    fIter (prevF (lRun ops)) ((lRun ops).size + 1) 0 = 0 := by
  obtain ⟨L, h⟩ := lRun_rep ops
  exact rep_ring_closure _ L h

/-! ### The pointer-based LinkedList (first unit of `src/LinkedList.h`) -/

/-- Null-terminated doubly-linked-list state: link heap (`0` = `nullptr`),
stored values, `mHead`, `mTail`, `mCount`. -/
structure LLState (α : Type) where
  mem : Nat → DNode
  val : Nat → α
  head : Nat
  tail : Nat
  count : Nat

/-- `LinkedList::Insert(newNode, before)` — full translation of the two
linking branches; a null `newNode` returns `false` with no mutation. -/
def llInsert [Inhabited α] (s : LLState α) (newNode bfr : Nat) : Bool × LLState α :=
  if newNode = 0 then (false, s)
  else if bfr = 0 then
    (true,
      { mem :=
          (fun m => if s.tail ≠ 0 then setNext m s.tail newNode else m)
            (setNext (setPrev s.mem newNode s.tail) newNode 0),
        val := s.val,
        head := if s.tail ≠ 0 then s.head else newNode,
        tail := newNode,
        count := s.count + 1 })
  else
    (true,
      { mem :=
          setPrev
            ((fun m => if (s.mem bfr).prev ≠ 0
                then setNext m (s.mem bfr).prev newNode else m)
              (setNext (setPrev s.mem newNode (s.mem bfr).prev) newNode bfr))
            bfr newNode,
        val := s.val,
        head := if (s.mem bfr).prev ≠ 0 then s.head else newNode,
        tail := s.tail,
        count := s.count + 1 })

/-- `LinkedList::Remove(node, bDelete)` — full translation; a null `node`
returns `false` with no mutation.  With `bDelete = false` the node is
detached (links nulled) instead of destroyed. -/
def llRemove [Inhabited α] (s : LLState α) (node : Nat) (bDelete : Bool) :
    Bool × LLState α :=
  if node = 0 then (false, s)
  else
    (true,
      { mem :=
          (fun m => if bDelete then m else setNext (setPrev m node 0) node 0)
            ((fun m => if (s.mem node).next ≠ 0
                then setPrev m (s.mem node).next (s.mem node).prev else m)
              ((fun m => if (s.mem node).prev ≠ 0
                  then setNext m (s.mem node).prev (s.mem node).next else m) s.mem)),
        val := s.val,
        head := if (s.mem node).prev ≠ 0 then s.head else (s.mem node).next,
        tail := if (s.mem node).next ≠ 0 then s.tail else (s.mem node).prev,
        count := s.count - 1 })

/-- C10: `Insert` with a null `newNode` and `Remove` with a null `node`
return `false` and leave the list completely unchanged: the returned state
is the input state itself, so head, tail, count and the stored element
sequence are all preserved. -/
theorem linkedlist_null_guards [Inhabited α] (s : LLState α) (bfr : Nat) (b : Bool) :
    llInsert s 0 bfr = (false, s) ∧ llRemove s 0 b = (false, s) := by
  constructor
  · unfold llInsert
    rw [if_pos rfl]
  · unfold llRemove
    rw [if_pos rfl]

/-! ### OutOfRange and Empty signalling (C5, C6) -/

/-- `insert` as the caller observes it: a thrown `OutOfRange` leaves the
container in its previous state (the check precedes every mutation). -/
def vecInsertRun [Inhabited α] (s : VecState α) (pos : Nat) (x : α) : VecState α :=
  match vecInsert s pos x with
  | .ok s2 => s2
  | .error _ => s

/-- `erase` as the caller observes it. -/
def vecEraseRun [Inhabited α] (s : VecState α) (pos : Nat) : VecState α :=
  match vecErase s pos with
  | .ok s2 => s2
  | .error _ => s

/-- C5: for the Dynamic Array and the List, `at`/`erase` signal `OutOfRange`
exactly when `pos ≥ size` and `insert`/`emplace` exactly when `pos > size`
(inserting at `pos == size` is allowed); the position is never clamped and
the container is unchanged whenever the error is signaled. -/
theorem out_of_range_conditions [Inhabited α] (s : VecState α) (d : DLL α)
    (pos : Nat) (x : α) :
    (vecAt s pos = .error () ↔ pos ≥ s.data.length) ∧
    (vecInsert s pos x = .error () ↔ pos > s.data.length) ∧
    (vecEmplace s pos x = .error () ↔ pos > s.data.length) ∧
    (vecErase s pos = .error () ↔ pos ≥ s.data.length) ∧
    (listInsertAt d pos x = .error () ↔ pos > d.size) ∧
    (listEraseAt d pos = .error () ↔ pos ≥ d.size) ∧
    (pos > s.data.length → vecInsertRun s pos x = s) ∧
    (pos ≥ s.data.length → vecEraseRun s pos = s) := by
  refine ⟨?_, ?_, ?_, ?_, ?_, ?_, ?_, ?_⟩
  · unfold vecAt
    by_cases h : pos ≥ s.data.length <;> simp [h]
  · unfold vecInsert
    by_cases h : pos > s.data.length <;> simp [h]
  · unfold vecEmplace
    by_cases h : pos > s.data.length <;> simp [h]
  · unfold vecErase
    by_cases h : pos ≥ s.data.length <;> simp [h]
  · unfold listInsertAt
    by_cases h : pos > d.size <;> simp [h]
  · unfold listEraseAt
    by_cases h : pos ≥ d.size <;> simp [h]
  · intro h
    unfold vecInsertRun
    have herr : vecInsert s pos x = .error () := by
      unfold vecInsert
      rw [if_pos h]
    rw [herr]
  · intro h
    unfold vecEraseRun
    have herr : vecErase s pos = .error () := by
      unfold vecErase
      rw [if_pos h]
    rw [herr]

/-- C5 witness: the out-of-range position 7 against a two-element array and
the empty list, plus the in-range boundary position. -/
theorem out_of_range_conditions_witness :
    (vecAt (⟨[3, 4], 2⟩ : VecState Nat) 7 = .error ()) ∧
    (vecInsert (⟨[3, 4], 2⟩ : VecState Nat) 7 5 = .error ()) ∧
    (listEraseAt (dllEmpty : DLL Nat) 0 = .error ()) ∧
    (vecInsertRun (⟨[3, 4], 2⟩ : VecState Nat) 7 5 = ⟨[3, 4], 2⟩) ∧
    (vecEraseRun (⟨[3, 4], 2⟩ : VecState Nat) 2 = ⟨[3, 4], 2⟩) :=
  ⟨(out_of_range_conditions ⟨[3, 4], 2⟩ (dllEmpty : DLL Nat) 7 5).1.mpr (by decide),
    (out_of_range_conditions ⟨[3, 4], 2⟩ (dllEmpty : DLL Nat) 7 5).2.1.mpr (by decide),
    (out_of_range_conditions (⟨[3, 4], 2⟩ : VecState Nat) (dllEmpty : DLL Nat) 0
      5).2.2.2.2.2.1.mpr (by decide),
    (out_of_range_conditions ⟨[3, 4], 2⟩ (dllEmpty : DLL Nat) 7 5).2.2.2.2.2.2.1
      (by decide),
    (out_of_range_conditions ⟨[3, 4], 2⟩ (dllEmpty : DLL Nat) 2 5).2.2.2.2.2.2.2
      (by decide)⟩

/-- C6 counterexample: `pop_back` on an empty Dynamic Array hits
`assert(!empty())` — a precondition violation, not a signaled (recoverable)
`Empty` error as the claim states. -/
theorem vector_popback_not_empty_error :
    vecPopBack (⟨[], 0⟩ : VecState Nat) ≠ OpResult.emptyError := by decide

/-- C6 amended: Stack Pop/Peek, Queue Dequeue/Peek and PriorityQueue
Dequeue/Peek signal `Empty` on a container with zero elements; the Dynamic
Array's popBack — like the linked list's front/back — is instead a
documented precondition violation (a debug assert), not a recoverable
error. -/
theorem empty_operation_behavior [Inhabited α] (cmp : α → α → Bool)
    (st : StackState α) (q : QState α) (p : PQState α) (v : VecState α) (d : DLL α)
    (h1 : st.data.length = 0) (h2 : q.count = 0) (h3 : p.data.length = 0)
    (h4 : v.data.length = 0) (h5 : d.size = 0) :
    stackPop st = .emptyError ∧ stackPeek st = .emptyError ∧
    qDequeueE q = .emptyError ∧ qPeekE q = .emptyError ∧
    pqDequeueE cmp p = .emptyError ∧ pqPeekE p = .emptyError ∧
    vecPopBack v = .assertViolation ∧
    listFront d = .assertViolation ∧ listBack d = .assertViolation := by
  unfold stackPop stackPeek qDequeueE qPeekE pqDequeueE pqPeekE vecPopBack listFront listBack
  refine ⟨?_, ?_, ?_, ?_, ?_, ?_, ?_, ?_, ?_⟩ <;> simp [h1, h2, h3, h4, h5]

/-- C6 witness: the amended behavior at concrete empty containers. -/
theorem empty_operation_behavior_witness :
    stackPop (⟨[], 0⟩ : StackState Nat) = .emptyError ∧
    stackPeek (⟨[], 0⟩ : StackState Nat) = .emptyError ∧
    qDequeueE (⟨[], 0, 0, 0, 0⟩ : QState Nat) = .emptyError ∧
    qPeekE (⟨[], 0, 0, 0, 0⟩ : QState Nat) = .emptyError ∧
    pqDequeueE natLt (⟨[], 0⟩ : PQState Nat) = .emptyError ∧
    pqPeekE (⟨[], 0⟩ : PQState Nat) = .emptyError ∧
    vecPopBack (⟨[], 0⟩ : VecState Nat) = .assertViolation ∧
    listFront (dllEmpty : DLL Nat) = .assertViolation ∧
    listBack (dllEmpty : DLL Nat) = .assertViolation :=
  empty_operation_behavior natLt ⟨[], 0⟩ ⟨[], 0, 0, 0, 0⟩ ⟨[], 0⟩ ⟨[], 0⟩ dllEmpty
    rfl rfl rfl rfl rfl

end abouttt
